import Mathlib

/-!
Verification of the timing-diagram editing engine.

This file gives a shallow embedding, in Lean 4, of the timeline editing
engine of the waveform editor: the Timeline Store primitives
(`Signal.get_value_at` / `Signal.set_value_at` in `core/models.py`), the
Block Locator (`get_block_bounds` in `ui/canvas.py`), the Boundary Resizer
(the duration-edit branch of `mouseMoveEvent`), the Relocator (the
move-preview branch of `mouseMoveEvent` and `start_moving_block`), the
Clipboard Transcriber (`copy_selection` / `paste_selection`) and the
Undo/Redo manager (`core/undo_manager.py`).

Python lists of per-cycle value strings are embedded as `List String`;
Python integers as `Int` (cycle indices that are provably nonnegative at
their use sites are converted with `Int.toNat` at the list boundary).
Stateful drag gestures become explicit state records with pure transition
functions.  Fallible operations return `Except String`.
-/

namespace Timing

/-! ## Integer ranges

`intRangeI a n` embeds Python's `range(a, a + n)` (ascending, `n` items);
`descRangeI a n` embeds `range(a, a - n, -1)` (descending, `n` items).
-/

def intRangeI (a : Int) : Nat → List Int
  | 0 => []
  | n + 1 => a :: intRangeI (a + 1) n

def descRangeI (a : Int) : Nat → List Int
  | 0 => []
  | n + 1 => a :: descRangeI (a - 1) n

/-- `range(lo, hi)` for integers: ascending from `lo` up to `hi - 1`. -/
def pyRange (lo hi : Int) : List Int := intRangeI lo (hi - lo).toNat

/-- `range(hi, lo - 1, -1)` for integers: descending from `hi` down to `lo`. -/
def pyRangeDown (hi lo : Int) : List Int := descRangeI hi (hi - lo + 1).toNat

/-! ## Timeline Store (`core/models.py`, class `Signal`) -/

/-- `Signal.get_value_at`: returns `values[cycle_index]` when
`0 <= cycle_index < len(values)` and the sentinel `'X'` otherwise. -/
def getValueAt (values : List String) (cycleIndex : Int) : String :=
  if 0 ≤ cycleIndex ∧ cycleIndex < values.length then
    values.getD cycleIndex.toNat "X"
  else "X"

/-- `Signal.set_value_at` for a nonnegative index: extend the list with
`'X'` fill up to and including the index if needed, then write the value.
Every call site in the engine passes a nonnegative index (see
`setValueAtInt` for the unrestricted Python semantics). -/
def setValueAt (values : List String) (cycleIndex : Nat) (v : String) : List String :=
  let values :=
    if values.length ≤ cycleIndex then
      values ++ List.replicate (cycleIndex - values.length + 1) "X"
    else values
  values.set cycleIndex v

/-- `Signal.set_value_at` with full Python indexing semantics, for an
arbitrary integer index: a negative index never triggers the extension
branch (`cycle_index >= len(self.values)` is false), so
`self.values[cycle_index] = value` wraps around (writes
`values[len + cycle_index]`) when `-len <= cycle_index < 0` and raises
`IndexError` when `cycle_index < -len`. -/
def setValueAtInt (values : List String) (cycleIndex : Int) (v : String) :
    Except String (List String) :=
  let values :=
    if (values.length : Int) ≤ cycleIndex then
      values ++ List.replicate (cycleIndex - values.length + 1).toNat "X"
    else values
  if 0 ≤ cycleIndex then .ok (values.set cycleIndex.toNat v)
  else if 0 ≤ cycleIndex + values.length then
    .ok (values.set (cycleIndex + values.length).toNat v)
  else .error "IndexError"

/-! ## Block Locator (`ui/canvas.py`, `get_block_bounds`) -/

/-- The left scan of `get_block_bounds`:
`for t in range(cycle_idx, -1, -1): if get_value_at(t) == val: o_start = t else: break`. -/
def blockScanLeft (values : List String) (val : String) : List Int → Int → Int
  | [], acc => acc
  | t :: ts, acc =>
      if getValueAt values t = val then blockScanLeft values val ts t else acc

/-- The right scan of `get_block_bounds`:
`for t in range(cycle_idx, total_cycles): if get_value_at(t) == val: o_end = t else: break`. -/
def blockScanRight (values : List String) (val : String) : List Int → Int → Int
  | [], acc => acc
  | t :: ts, acc =>
      if getValueAt values t = val then blockScanRight values val ts t else acc

/-- `get_block_bounds(signal, cycle_idx)`: the maximal contiguous run of
cells equal to `values[cycle_idx]` containing `cycle_idx`, degenerate for
out-of-range indices and for the undefined value `'X'`. -/
def getBlockBounds (values : List String) (totalCycles : Int) (cycleIdx : Int) :
    Int × Int × String :=
  if cycleIdx < 0 ∨ totalCycles ≤ cycleIdx then (cycleIdx, cycleIdx, "X")
  else if getValueAt values cycleIdx ≠ "X" then
    (blockScanLeft values (getValueAt values cycleIdx) (pyRangeDown cycleIdx 0) cycleIdx,
      blockScanRight values (getValueAt values cycleIdx) (pyRange cycleIdx totalCycles) cycleIdx,
      getValueAt values cycleIdx)
  else (cycleIdx, cycleIdx, getValueAt values cycleIdx)

/-! ## A fill loop: `for t in ts: signal.set_value_at(t, v)` -/

def fillFold (vs : List String) (v : String) (ts : List Int) : List String :=
  ts.foldl (fun acc t => setValueAt acc t.toNat v) vs

/-- Upper write bound of a fill loop (`0` when the loop body never runs);
proof-layer auxiliary used to reason about list growth. -/
def fillBound (ts : List Int) : Nat :=
  ts.foldl (fun m t => max m (t.toNat + 1)) 0

/-! ## Boundary Resizer (`ui/canvas.py`, duration-edit branch of `mouseMoveEvent`) -/

inductive EditMode
  | START
  | END
deriving DecidableEq, Repr

/-- Insert-mode left bound scan: walk left from `orig_start - 1`, stop at
the first cycle whose initial value is neither `'X'` nor the block's own
value; the bound is one past it (`t + 1`), or `0` when no such cycle
exists. -/
def insertScanLeft (init : List String) (value : String) : List Int → Int
  | [] => 0
  | t :: ts =>
      let vAtT := if t < (init.length : Int) then init.getD t.toNat "X" else "X"
      if vAtT ≠ "X" ∧ vAtT ≠ value then t + 1 else insertScanLeft init value ts

/-- Insert-mode right bound scan: walk right from `orig_end + 1`, stop at
the first cycle whose initial value is neither `'X'` nor the block's own
value; the bound is one before it (`t - 1`), or `total_cycles - 1` when no
such cycle exists. -/
def insertScanRight (init : List String) (value : String) (totalCycles : Int) :
    List Int → Int
  | [] => totalCycles - 1
  | t :: ts =>
      let vAtT := if t < (init.length : Int) then init.getD t.toNat "X" else "X"
      if vAtT ≠ "X" ∧ vAtT ≠ value then t - 1 else insertScanRight init value totalCycles ts

/-- The gesture-scoped mutable state of a duration-edit drag: the live
`signal.values`, the project's `total_cycles`, and the `edit_*` fields set
up by `mousePressEvent` (`edit_start_cycle`, `edit_value`,
`edit_orig_start`, `edit_orig_end`, `edit_initial_values`, `edit_mode`)
together with the Insert/Overwrite flag. -/
structure ResizeState where
  values : List String
  totalCycles : Int
  editStartCycle : Int
  editValue : String
  editOrigStart : Int
  editOrigEnd : Int
  editInitialValues : List String
  editMode : Option EditMode
  isInsertMode : Bool
deriving DecidableEq, Repr

/-- Gesture setup from `mousePressEvent`: locate the block under the
press, snapshot `edit_initial_values = list(signal.values)`, and
pre-determine `edit_mode` by the center-split rule when the block spans at
least two cycles (`clickNearerStart` abstracts the pixel comparison of the
cursor against the block's center), leaving it undetermined for a
single-cycle block. -/
def beginResize (values : List String) (totalCycles t0 : Int)
    (clickNearerStart isInsert : Bool) : ResizeState :=
  let r := getBlockBounds values totalCycles t0
  { values := values
    totalCycles := totalCycles
    editStartCycle := t0
    editValue := r.2.2
    editOrigStart := r.1
    editOrigEnd := r.2.1
    editInitialValues := values
    editMode :=
      if 2 ≤ r.2.1 - r.1 + 1 then
        some (if clickNearerStart then EditMode.START else EditMode.END)
      else none
    isInsertMode := isInsert }

/-- `left_bound` of the duration-edit branch: `0` in Overwrite mode, the
insert-mode scan result otherwise.  Reads only the gesture-start snapshot
and the frozen gesture fields, never the live values. -/
def resizeLeftBound (st : ResizeState) : Int :=
  if st.isInsertMode then
    insertScanLeft st.editInitialValues st.editValue
      (pyRangeDown (st.editOrigStart - 1) 0)
  else 0

/-- `right_bound` of the duration-edit branch: `total_cycles - 1` in
Overwrite mode, the insert-mode scan result otherwise. -/
def resizeRightBound (st : ResizeState) : Int :=
  if st.isInsertMode then
    insertScanRight st.editInitialValues st.editValue st.totalCycles
      (pyRange (st.editOrigEnd + 1) st.totalCycles)
  else st.totalCycles - 1

/-- The clamped right edge in END mode:
`final_end = max(orig_start, min(orig_end + delta, right_bound))`. -/
def resizeFinalEnd (st : ResizeState) (currentCycle : Int) : Int :=
  max st.editOrigStart
    (min (st.editOrigEnd + (currentCycle - st.editStartCycle)) (resizeRightBound st))

/-- The clamped left edge in START mode:
`final_start = max(left_bound, min(orig_start + delta, orig_end))`. -/
def resizeFinalStart (st : ResizeState) (currentCycle : Int) : Int :=
  max (resizeLeftBound st)
    (min (st.editOrigStart + (currentCycle - st.editStartCycle)) st.editOrigEnd)

/-- The edit application of the duration-edit branch once the mode is
known: clamp the active edge against the collision bounds, fill the new
span with the block's value and clear the vacated cells with `'X'`.
Returns the updated state plus `(final_start, final_end)` (emitted
through `region_updated`). -/
def applyResizeEdit (st : ResizeState) (m : EditMode) (currentCycle : Int) :
    ResizeState × Int × Int :=
  match m with
  | EditMode.END =>
      let finalEnd := resizeFinalEnd st currentCycle
      let vs1 := fillFold st.values st.editValue
        (pyRange st.editOrigStart (finalEnd + 1))
      let vs2 :=
        if finalEnd < st.editOrigEnd then
          fillFold vs1 "X" (pyRange (finalEnd + 1) (st.editOrigEnd + 1))
        else vs1
      ({ st with values := vs2 }, st.editOrigStart, finalEnd)
  | EditMode.START =>
      let finalStart := resizeFinalStart st currentCycle
      let vs1 := fillFold st.values st.editValue
        (pyRange finalStart (st.editOrigEnd + 1))
      let vs2 :=
        if st.editOrigStart < finalStart then
          fillFold vs1 "X" (pyRange st.editOrigStart finalStart)
        else vs1
      ({ st with values := vs2 }, finalStart, st.editOrigEnd)

/-- One `updateResize(currentCycle)` step, i.e. one execution of the
duration-edit branch of `mouseMoveEvent`: clamp the cursor cycle into
`[0, total_cycles - 1]`, restore `signal.values` from the gesture
snapshot (skipped by Python's falsy test when the snapshot is the empty
list), resolve a still-undetermined `edit_mode` from the drag direction
(waiting while the pixel delta `dragDiff` is within the 5-unit threshold),
and apply the edit.  Returns the new state and the emitted
`(final_start, final_end)` (or `none` on the early return). -/
def updateResize (st : ResizeState) (currentCycleRaw dragDiff : Int) :
    ResizeState × Option (Int × Int) :=
  let currentCycle := max 0 (min currentCycleRaw (st.totalCycles - 1))
  let restored := if st.editInitialValues.isEmpty then st.values else st.editInitialValues
  match st.editMode with
  | none =>
      if dragDiff.natAbs < 5 then ({ st with values := restored }, none)
      else
        let m := if dragDiff < 0 then EditMode.START else EditMode.END
        let r := applyResizeEdit { st with values := restored, editMode := some m } m
          currentCycle
        (r.1, some r.2)
  | some m =>
      let r := applyResizeEdit { st with values := restored } m currentCycle
      (r.1, some r.2)

/-- Well-formedness of a duration-edit gesture state as established by
`beginResize`: the live values equal the snapshot, the original block
bounds are an in-range, nonempty span consistently holding the block's
value, and an empty snapshot forces the degenerate `'X'` value. -/
def ResizeWF (st : ResizeState) : Prop :=
  st.values = st.editInitialValues ∧
  0 ≤ st.editOrigStart ∧
  st.editOrigStart ≤ st.editOrigEnd ∧
  st.editOrigEnd < st.totalCycles ∧
  (∀ t, st.editOrigStart ≤ t → t ≤ st.editOrigEnd →
    getValueAt st.editInitialValues t = st.editValue) ∧
  (st.editInitialValues = [] → st.editValue = "X")

/-! ## Relocator (`start_moving_block` and the move-preview branch of `mouseMoveEvent`)

A `Region` is a `(signal index, start cycle, end cycle)` triple, the unit
of selection.  The preview computation below never touches the real
signals; it is recomputed from the gesture-start snapshot on every pointer
move.
-/

abbrev Region := Int × Int × Int

/-- Sort key of `sorted(regions, key=lambda r: (r[0], r[1]))`. -/
def regionLeBool (r s : Region) : Bool :=
  decide (r.1 < s.1 ∨ (r.1 = s.1 ∧ r.2.1 ≤ s.2.1))

/-- Keys of a dict built by insertion in list order (Python dicts preserve
insertion order): the distinct signal indices in first-occurrence order. -/
def firstOccKeys (rs : List Region) : List Int :=
  rs.foldl (fun ks r => if r.1 ∈ ks then ks else ks ++ [r.1]) []

/-- `moving_blocks_snapshot` from `start_moving_block`, restricted to its
integer keys (`snap[r_sig] = list(signals[r_sig].values)`, first region
per signal wins).  The string-keyed per-region extracts it also stores are
never read by the preview or commit paths and are omitted.  Call sites
guarantee `0 ≤ r.1 < signals.length`, so `getD` indexing is faithful. -/
def buildMoveSnapshot (signals : List (List String)) (regions : List Region) :
    List (Int × List String) :=
  regions.foldl
    (fun snap r =>
      if (snap.find? (fun p => decide (p.1 = r.1))).isSome then snap
      else snap ++ [(r.1, signals.getD r.1.toNat [])])
    []

def snapLookup (snap : List (Int × List String)) (k : Int) : Option (List String) :=
  (snap.find? (fun p => decide (p.1 = k))).map (·.2)

/-- Delete step of the move preview:
`if start < len(preview): safe_end = min(end, len(preview)-1); if safe_end >= start: del preview[start:safe_end+1]`.
Regions have nonnegative starts at every call site, so `toNat` is
faithful. -/
def moveDeleteStep (preview : List String) (r : Region) : List String :=
  if r.2.1 < (preview.length : Int) then
    let safeEnd := min r.2.2 ((preview.length : Int) - 1)
    if r.2.1 ≤ safeEnd then
      preview.take r.2.1.toNat ++ preview.drop (safeEnd + 1).toNat
    else preview
  else preview

/-- Block-value extraction of the move preview:
`orig_full_values[start : min(end, len-1) + 1]` when the start is in
range, else a run of `'X'` of the region's length. -/
def moveBlockVals (origFull : List String) (r : Region) : List String :=
  if r.2.1 < (origFull.length : Int) then
    let safeEnd := min r.2.2 ((origFull.length : Int) - 1)
    (origFull.drop r.2.1.toNat).take (safeEnd + 1 - r.2.1).toNat
  else List.replicate (r.2.2 - r.2.1 + 1).toNat "X"

/-- Insertion step of the move preview: clamp the target at 0, right-pad
the preview with `'X'` up to the target if needed, splice the block values
in, and record the realized `(new_start, new_end)` pair. -/
def moveInsertStep (acc : List String × List (Int × Int)) (task : Int × List String) :
    List String × List (Int × Int) :=
  let tgt := if task.1 < 0 then 0 else task.1
  let preview := acc.1
  let preview :=
    if (preview.length : Int) < tgt then
      preview ++ List.replicate (tgt - preview.length).toNat "X"
    else preview
  let p := tgt.toNat
  (preview.take p ++ task.2 ++ preview.drop p,
    acc.2 ++ [(tgt, tgt + task.2.length - 1)])

/-- The per-signal preview of `updateMove`: start from the snapshot of the
whole signal, delete all selected regions in descending start order, then
splice each region's original values back in at `start + delta` in
ascending target order. -/
def computeSignalPreview (origFull : List String) (regions : List Region) (delta : Int) :
    List String × List (Int × Int) :=
  let regionsDesc := regions.mergeSort (fun r s => decide (s.2.1 ≤ r.2.1))
  let afterDelete := regionsDesc.foldl moveDeleteStep origFull
  let regionsAsc := regions.mergeSort (fun r s => decide (r.2.1 ≤ s.2.1))
  let tasks := regionsAsc.map (fun r => (r.2.1 + delta, moveBlockVals origFull r))
  let tasksSorted := tasks.mergeSort (fun a b => decide (a.1 ≤ b.1))
  tasksSorted.foldl moveInsertStep (afterDelete, [])

/-- Gesture state of a block move: the real signals, the gesture-start
snapshot and selection, and the preview fields recomputed on every move
(`preview_signal_values`, `move_new_regions_map`, `move_target_cycle`). -/
structure MoveState where
  signals : List (List String)
  movingSnapshot : List (Int × List String)
  selectedRegions : List Region
  previewValues : List (Int × List String)
  moveNewRegions : List (Int × List (Int × Int))
  moveDragStartCycle : Int
  moveTargetCycle : Int
deriving DecidableEq, Repr

/-- `start_moving_block`: snapshot every touched signal's full value array
and reset the preview fields.  (The optional selection replacement for an
unselected clicked region happens before this point; the selection passed
in is the one the gesture runs with.) -/
def beginMove (signals : List (List String)) (regions : List Region)
    (dragStartCycle : Int) : MoveState :=
  { signals := signals
    movingSnapshot := buildMoveSnapshot signals regions
    selectedRegions := regions
    previewValues := []
    moveNewRegions := []
    moveDragStartCycle := dragStartCycle
    moveTargetCycle := dragStartCycle }

/-- One `updateMove(delta)` step, i.e. one execution of the move-preview
branch of `mouseMoveEvent`: group the sorted selection by signal, and for
every signal with a snapshot recompute the preview from that snapshot.
The real `signals` are not written. -/
def updateMove (st : MoveState) (delta : Int) : MoveState :=
  let sortedSel := st.selectedRegions.mergeSort regionLeBool
  let keys := firstOccKeys sortedSel
  let entries := keys.filterMap (fun k =>
    match snapLookup st.movingSnapshot k with
    | none => none
    | some origFull =>
        some (k, computeSignalPreview origFull
          (sortedSel.filter (fun r => decide (r.1 = k))) delta))
  { st with
    previewValues := entries.map (fun e => (e.1, e.2.1))
    moveNewRegions := entries.map (fun e => (e.1, e.2.2))
    moveTargetCycle := st.moveDragStartCycle + delta }

/-- Abandoning a move gesture without commit: the gesture state is
discarded and the signals are whatever they were. -/
def cancelMove (st : MoveState) : List (List String) :=
  st.signals

/-! ## Clipboard Transcriber (`copy_selection` / `paste_selection`) -/

/-- One entry of the clipboard payload:
`{'rel_sig': ..., 'values': [...], 'start_offset': ...}`. -/
structure PasteItem where
  rel_sig : Int
  values : List String
  start_offset : Int
deriving DecidableEq, Repr

/-- `copy_selection`: sort the selection by `(signal, start)`, normalize
signal indices against the topmost selected signal and start cycles
against the very first block's start, and extract each in-range region's
values via `get_value_at`. -/
def copySelection (signals : List (List String)) (regions : List Region) :
    List PasteItem :=
  match regions.mergeSort regionLeBool with
  | [] => []
  | first :: rest =>
      (first :: rest).filterMap (fun r =>
        if 0 ≤ r.1 ∧ r.1 < (signals.length : Int) then
          some { rel_sig := r.1 - first.1
                 values := (pyRange r.2.1 (r.2.2 + 1)).map
                   (fun t => getValueAt (signals.getD r.1.toNat []) t)
                 start_offset := r.2.1 - first.2.1 }
        else none)

/-- Distinct `rel_sig` keys of the payload in first-occurrence order
(the iteration order of the `defaultdict` built by `paste_selection`). -/
def pasteGroupKeys (data : List PasteItem) : List Int :=
  data.foldl (fun ks it => if it.rel_sig ∈ ks then ks else ks ++ [it.rel_sig]) []

/-- `for i, val in enumerate(v): insert_buffer[off + i] = val`. -/
def stampVals (buffer : List String) (off : Nat) : List String → List String
  | [] => buffer
  | v :: vs => stampVals (buffer.set off v) (off + 1) vs

/-- `min(item.get('start_offset', 0) for item in items)` (groups are
nonempty by construction; the `[]` case is unreachable). -/
def groupMinOffset (items : List PasteItem) : Int :=
  match items with
  | [] => 0
  | it :: rest => rest.foldl (fun m i => min m i.start_offset) it.start_offset

/-- `max(item.get('start_offset', 0) + len(item.get('values', [])) for item in items)`. -/
def groupMaxEnd (items : List PasteItem) : Int :=
  match items with
  | [] => 0
  | it :: rest =>
      rest.foldl (fun m i => max m (i.start_offset + i.values.length))
        (it.start_offset + it.values.length)

/-- The contiguous scratch buffer of one paste group: `'X'`-filled over
the group's span, with each item's values stamped in at
`start_offset - min_offset`. -/
def pasteBuffer (items : List PasteItem) : List String :=
  items.foldl
    (fun buf it => stampVals buf (it.start_offset - groupMinOffset items).toNat it.values)
    (List.replicate (groupMaxEnd items - groupMinOffset items).toNat "X")

/-- The splice of one paste group into one signal: pad the signal with
`'X'` up to the insertion point if needed
(`if insert_pos > curr_len: values.extend(['X'] * ...)`), then insert the
buffer at `insert_pos` (`values[insert_pos:insert_pos] = insert_buffer` —
always an insert, never an overwrite).  `insert_pos` is nonnegative at
every call site reached with a well-formed selection, so `toNat` is
faithful. -/
def pasteSpliceSignal (sv : List String) (insertPos : Int) (buffer : List String) :
    List String :=
  let svp :=
    if (sv.length : Int) < insertPos then
      sv ++ List.replicate (insertPos - sv.length).toNat "X"
    else sv
  svp.take insertPos.toNat ++ buffer ++ svp.drop insertPos.toNat

/-- Application of one paste group to its target signal.  Returns the
updated signal list and the recorded region bounds. -/
def pasteApplyGroup (signals : List (List String)) (anchorCycle : Int) (target : Nat)
    (items : List PasteItem) : List (List String) × Int × Int :=
  let minOff := groupMinOffset items
  let spanLen := groupMaxEnd items - minOff
  let insertPos := anchorCycle + minOff
  (signals.set target
    (pasteSpliceSignal (signals.getD target []) insertPos (pasteBuffer items)),
    insertPos, insertPos + spanLen - 1)

/-- One iteration of `paste_selection`'s apply loop: skip the group when
the target signal index is out of range (partial paste), else splice its
buffer into the target signal, record the new selection region and track
the longest resulting signal. -/
def pasteStep (data : List PasteItem) (anchorSig anchorCycle : Int)
    (acc : List (List String) × List Region × Nat) (k : Int) :
    List (List String) × List Region × Nat :=
  let targetSig := anchorSig + k
  if 0 ≤ targetSig ∧ targetSig < (acc.1.length : Int) then
    let items := data.filter (fun it => decide (it.rel_sig = k))
    let r := pasteApplyGroup acc.1 anchorCycle targetSig.toNat items
    (r.1, acc.2.1 ++ [(targetSig, r.2.1, r.2.2)],
      max acc.2.2 (r.1.getD targetSig.toNat []).length)
  else acc

/-- `paste_selection` applied to a well-formed payload at an explicit
anchor: group the payload by `rel_sig`, apply every group whose target
signal index is in range (others are skipped), then auto-expand
`total_cycles` to the longest resulting signal.  Returns the new signals,
the new `total_cycles` and the recorded new selection. -/
def pasteAt (signals : List (List String)) (totalCycles : Int)
    (anchorSig anchorCycle : Int) (data : List PasteItem) :
    List (List String) × Int × List Region :=
  let res := (pasteGroupKeys data).foldl (pasteStep data anchorSig anchorCycle)
    (signals, [], 0)
  (res.1,
    if totalCycles < (res.2.2 : Int) then (res.2.2 : Int) else totalCycles,
    res.2.1)

/-! ## Raw clipboard values (`paste_selection`'s payload guard)

`json.loads` produces untyped Python values; `PyVal` embeds the subset
relevant to the guard.  The guard catches a failed parse and a non-list
top level, but the grouping loop then calls `item.get('rel_sig', 0)` on
every entry, which raises `AttributeError` for a non-dict entry.
-/

inductive PyVal where
  | pyStr (s : String)
  | pyInt (n : Int)
  | pyList (xs : List PyVal)
  | pyDict (kvs : List (String × PyVal))

/-- The grouping loop of `paste_selection`
(`for item in data: grouped_data[item.get('rel_sig', 0)].append(item)`):
succeeds on dict entries, raises `AttributeError` on anything else. -/
def pasteGroupingLoop (data : List PyVal) : Except String Unit :=
  data.foldlM
    (fun _ item =>
      match item with
      | PyVal.pyDict _ => Except.ok ()
      | _ => Except.error "AttributeError")
    ()

/-- The payload guard of `paste_selection` up to and including the
grouping loop.  `none` models clipboard text that is empty or fails
`json.loads` (caught: silent no-op); a non-list value is also a silent
no-op; a list reaches the unguarded grouping loop.  `ok false` means
"returned without pasting", `ok true` means "proceeded to the apply
loop". -/
def pasteSelectionReaches (clipboardValue : Option PyVal) : Except String Bool :=
  match clipboardValue with
  | none => Except.ok false
  | some (PyVal.pyList items) =>
      match pasteGroupingLoop items with
      | Except.ok _ => Except.ok true
      | Except.error e => Except.error e
  | some _ => Except.ok false

/-! ## Undo/Redo Manager (`core/undo_manager.py`)

The manager is embedded generically over the snapshot state type `α`,
standing for the deep-copied `project.to_dict()` dictionaries: at this
level `copy.deepcopy` is the identity, and `to_dict` / `_restore_state`
are mutually inverse on the snapshot dictionaries the manager stores
(`_restore_state` writes every field `to_dict` reads, and
`Signal.from_dict` / `Signal.to_dict` round-trip every serialized field,
including the `type` enum via its name).  Python's `list.append` / `pop`
act on the list's tail, embedded as `++ [x]` / `getLast?`+`dropLast`.
-/

structure UndoManager (α : Type) where
  project : α
  undoStack : List α
  redoStack : List α
  pendingSnapshot : Option α
deriving DecidableEq, Repr

namespace UndoManager

/-- `push_snapshot`: discard any pending snapshot, push the current state,
clear the redo stack. -/
def pushSnapshot (m : UndoManager α) : UndoManager α :=
  { m with
    pendingSnapshot := none
    undoStack := m.undoStack ++ [m.project]
    redoStack := [] }

/-- `request_snapshot`: capture the current state as pending unless a
pending snapshot already exists (first request in a burst wins). -/
def requestSnapshot (m : UndoManager α) : UndoManager α :=
  match m.pendingSnapshot with
  | some _ => m
  | none => { m with pendingSnapshot := some m.project }

/-- `commit_snapshot`: push the pending (pre-change) state if any, clear
the redo stack and the pending slot. -/
def commitSnapshot (m : UndoManager α) : UndoManager α :=
  match m.pendingSnapshot with
  | some p =>
      { m with
        undoStack := m.undoStack ++ [p]
        redoStack := []
        pendingSnapshot := none }
  | none => m

/-- `undo`: discard pending, and unless the undo stack is empty, push the
current state onto redo, pop the undo stack and restore from it. -/
def undo (m : UndoManager α) : Bool × UndoManager α :=
  let m := { m with pendingSnapshot := none }
  match m.undoStack.getLast? with
  | none => (false, m)
  | some prev =>
      (true,
        { m with
          redoStack := m.redoStack ++ [m.project]
          undoStack := m.undoStack.dropLast
          project := prev })

/-- `redo`: symmetric to `undo`, using the redo stack. -/
def redo (m : UndoManager α) : Bool × UndoManager α :=
  let m := { m with pendingSnapshot := none }
  match m.redoStack.getLast? with
  | none => (false, m)
  | some next =>
      (true,
        { m with
          undoStack := m.undoStack ++ [m.project]
          redoStack := m.redoStack.dropLast
          project := next })

def undoStep (m : UndoManager α) : UndoManager α := (undo m).2

def redoStep (m : UndoManager α) : UndoManager α := (redo m).2

/-- One committed edit `E` that changes the project state to `σ'`:
`request_snapshot()` at gesture start, the edit itself, then
`commit_snapshot()` on the change notification. -/
def commitEdit (m : UndoManager α) (σ' : α) : UndoManager α :=
  commitSnapshot { (requestSnapshot m) with project := σ' }

end UndoManager

/-- Snapshots pushed by a run of committed edits starting from state `σ`:
the state before each edit. -/
def preStates (σ : α) : List α → List α
  | [] => []
  | e :: es => σ :: preStates e es

/-- The state after a run of edits starting from `σ`. -/
def lastState (σ : α) : List α → α
  | [] => σ
  | e :: es => lastState e es

/-! ## Positional lemmas for the store primitives -/

theorem getValueAt_neg {vs : List String} {t : Int} (h : t < 0) : getValueAt vs t = "X" := by
  simp only [getValueAt]
  rw [if_neg]
  omega

theorem getValueAt_ge {vs : List String} {t : Int} (h : (vs.length : Int) ≤ t) :
    getValueAt vs t = "X" := by
  simp only [getValueAt]
  rw [if_neg]
  omega

theorem getValueAt_nonneg {vs : List String} {t : Int} (h : 0 ≤ t) :
    getValueAt vs t = (vs[t.toNat]?).getD "X" := by
  simp only [getValueAt]
  by_cases hlt : t < vs.length
  · rw [if_pos ⟨h, hlt⟩, List.getD_eq_getElem?_getD]
  · rw [if_neg (by omega), List.getElem?_eq_none (by omega)]
    rfl

theorem length_setValueAt (vs : List String) (i : Nat) (v : String) :
    (setValueAt vs i v).length = max vs.length (i + 1) := by
  simp only [setValueAt]
  by_cases h : vs.length ≤ i
  · rw [if_pos h]
    simp only [List.length_set, List.length_append, List.length_replicate]
    omega
  · rw [if_neg h]
    simp only [List.length_set]
    omega

theorem getElem?_setValueAt (vs : List String) (i : Nat) (v : String) (j : Nat) :
    (setValueAt vs i v)[j]? =
      if j = i then some v
      else if j < vs.length then vs[j]?
      else if j < max vs.length (i + 1) then some "X"
      else none := by
  simp only [setValueAt]
  by_cases h : vs.length ≤ i
  · rw [if_pos h]
    rw [List.getElem?_set]
    by_cases hji : i = j
    · subst hji
      rw [if_pos rfl, if_pos (by simp [List.length_append]; omega), if_pos rfl]
    · rw [if_neg hji, if_neg (Ne.symm hji), List.getElem?_append]
      by_cases hj : j < vs.length
      · rw [if_pos hj, if_pos hj]
      · rw [if_neg hj, if_neg hj, List.getElem?_replicate]
        by_cases hj2 : j < max vs.length (i + 1)
        · rw [if_pos (by omega), if_pos hj2]
        · rw [if_neg (by omega), if_neg hj2]
  · rw [if_neg h]
    rw [List.getElem?_set]
    by_cases hji : i = j
    · subst hji
      rw [if_pos rfl, if_pos (by omega), if_pos rfl]
    · rw [if_neg hji, if_neg (Ne.symm hji)]
      by_cases hj : j < vs.length
      · rw [if_pos hj]
      · rw [if_neg hj, if_neg (by omega), List.getElem?_eq_none (by omega)]

theorem getValueAt_setValueAt (vs : List String) (i : Nat) (v : String) (t : Int) :
    getValueAt (setValueAt vs i v) t = if t = (i : Int) then v else getValueAt vs t := by
  by_cases ht : 0 ≤ t
  · rw [getValueAt_nonneg ht, getValueAt_nonneg ht, getElem?_setValueAt]
    by_cases hti : t = (i : Int)
    · rw [if_pos hti, if_pos (by omega)]
      rfl
    · rw [if_neg hti, if_neg (by omega)]
      by_cases hj : t.toNat < vs.length
      · rw [if_pos hj]
      · rw [if_neg hj, List.getElem?_eq_none (by omega)]
        by_cases hj2 : t.toNat < max vs.length (i + 1)
        · rw [if_pos hj2]
          rfl
        · rw [if_neg hj2]
  · rw [getValueAt_neg (by omega), if_neg (by omega), getValueAt_neg (by omega)]

theorem mem_intRangeI {t a : Int} {n : Nat} :
    t ∈ intRangeI a n ↔ a ≤ t ∧ t < a + n := by
  induction n generalizing a with
  | zero => simp [intRangeI]
  | succ n ih =>
    simp only [intRangeI, List.mem_cons, ih]
    omega

theorem mem_descRangeI {t a : Int} {n : Nat} :
    t ∈ descRangeI a n ↔ a - n < t ∧ t ≤ a := by
  induction n generalizing a with
  | zero => simp [descRangeI]
  | succ n ih =>
    simp only [descRangeI, List.mem_cons, ih]
    omega

theorem mem_pyRange {t lo hi : Int} : t ∈ pyRange lo hi ↔ lo ≤ t ∧ t < hi := by
  simp only [pyRange, mem_intRangeI]
  omega

theorem mem_pyRangeDown {t hi lo : Int} : t ∈ pyRangeDown hi lo ↔ lo - 1 < t ∧ t ≤ hi := by
  simp only [pyRangeDown, mem_descRangeI]
  omega

theorem getValueAt_fillFold (vs : List String) (v : String) (ts : List Int) (t : Int)
    (hts : ∀ s ∈ ts, 0 ≤ s) :
    getValueAt (fillFold vs v ts) t = if t ∈ ts then v else getValueAt vs t := by
  induction ts generalizing vs with
  | nil => simp [fillFold]
  | cons s ts ih =>
    have hs : 0 ≤ s := hts s (List.mem_cons_self _ _)
    have hrest : ∀ u ∈ ts, 0 ≤ u := fun u hu => hts u (List.mem_cons_of_mem _ hu)
    show getValueAt (fillFold (setValueAt vs s.toNat v) v ts) t = _
    rw [ih _ hrest, getValueAt_setValueAt]
    have hst : ((s.toNat : Int) = s) := by omega
    by_cases h1 : t ∈ ts
    · rw [if_pos h1, if_pos (List.mem_cons_of_mem _ h1)]
    · rw [if_neg h1]
      by_cases h2 : t = s
      · rw [if_pos (by omega), if_pos (by rw [List.mem_cons]; exact Or.inl h2)]
      · rw [if_neg (by omega), if_neg (by rw [List.mem_cons]; push_neg; exact ⟨h2, h1⟩)]

theorem foldl_max_shift (g : Int → Nat) (ts : List Int) (a : Nat) :
    ts.foldl (fun m t => max m (g t)) a = max a (ts.foldl (fun m t => max m (g t)) 0) := by
  induction ts generalizing a with
  | nil => simp
  | cons s ts ih =>
    rw [List.foldl_cons, List.foldl_cons, ih, ih (max 0 (g s))]
    omega

theorem length_fillFold (vs : List String) (v : String) (ts : List Int) :
    (fillFold vs v ts).length = max vs.length (fillBound ts) := by
  induction ts generalizing vs with
  | nil => simp [fillFold, fillBound]
  | cons s ts ih =>
    show (fillFold (setValueAt vs s.toNat v) v ts).length = _
    rw [ih, length_setValueAt]
    simp only [fillBound, List.foldl_cons]
    rw [foldl_max_shift (fun t => t.toNat + 1) ts (max 0 (s.toNat + 1))]
    omega

theorem setValueAt_allX {vs : List String} (i : Nat)
    (h : ∀ x ∈ vs, x = "X") : ∀ x ∈ setValueAt vs i "X", x = "X" := by
  intro x hx
  simp only [setValueAt] at hx
  rcases List.mem_or_eq_of_mem_set hx with hmem | rfl
  · by_cases hc : vs.length ≤ i
    · rw [if_pos hc] at hmem
      rcases List.mem_append.1 hmem with h1 | h1
      · exact h x h1
      · exact List.eq_of_mem_replicate h1
    · rw [if_neg hc] at hmem
      exact h x hmem
  · rfl

theorem fillFold_allX {vs : List String} (ts : List Int)
    (h : ∀ x ∈ vs, x = "X") : ∀ x ∈ fillFold vs "X" ts, x = "X" := by
  induction ts generalizing vs with
  | nil => exact h
  | cons s ts ih =>
    show ∀ x ∈ fillFold (setValueAt vs s.toNat "X") "X" ts, x = "X"
    exact ih (setValueAt_allX _ h)

/-! ## Block Locator scan specifications -/

theorem blockScanLeft_go (values : List String) (val : String) (hval : val ≠ "X") :
    ∀ (m : Nat) (t acc : Int), 0 ≤ t → t + 1 = (m : Int) →
    (t = acc ∨ t + 1 = acc) → getValueAt values acc = val →
    (∀ s, t < s → s ≤ acc → getValueAt values s = val) →
    (0 ≤ blockScanLeft values val (descRangeI t m) acc ∧
      blockScanLeft values val (descRangeI t m) acc ≤ acc) ∧
    (∀ s, blockScanLeft values val (descRangeI t m) acc ≤ s → s ≤ acc →
      getValueAt values s = val) ∧
    getValueAt values (blockScanLeft values val (descRangeI t m) acc - 1) ≠ val := by
  intro m
  induction m with
  | zero => intro t acc ht hm _ _ _; exfalso; omega
  | succ k ih =>
    intro t acc ht hm hta hacc hinv
    have htk : t = (k : Int) := by push_cast at hm; omega
    rw [show descRangeI t (k + 1) = t :: descRangeI (t - 1) k from rfl]
    by_cases heq : getValueAt values t = val
    · rw [show blockScanLeft values val (t :: descRangeI (t - 1) k) acc =
        blockScanLeft values val (descRangeI (t - 1) k) t from by
          simp [blockScanLeft, heq]]
      by_cases ht0 : t = 0
      · have hk0 : k = 0 := by omega
        subst hk0
        rw [show descRangeI (t - 1) 0 = [] from rfl]
        rw [show blockScanLeft values val [] t = t from rfl]
        subst ht0
        refine ⟨⟨le_refl 0, by omega⟩, ?_, ?_⟩
        · intro s hs1 hs2
          rcases eq_or_lt_of_le hs1 with h | h
          · rw [← h]; exact heq
          · exact hinv s h hs2
        · rw [getValueAt_neg (by omega)]; exact Ne.symm hval
      · have := ih (t - 1) t (by omega) (by omega) (Or.inr (by omega)) heq
          (fun s hs1 hs2 => by
            have : s = t := by omega
            rw [this]; exact heq)
        obtain ⟨⟨hr0, hrle⟩, hcov, hmax⟩ := this
        refine ⟨⟨hr0, by omega⟩, ?_, hmax⟩
        intro s hs1 hs2
        by_cases hst : s ≤ t
        · exact hcov s hs1 hst
        · exact hinv s (by omega) hs2
    · rw [show blockScanLeft values val (t :: descRangeI (t - 1) k) acc = acc from by
        simp [blockScanLeft, heq]]
      rcases hta with h | h
      · exact absurd (h ▸ hacc) heq
      · refine ⟨⟨by omega, le_refl acc⟩, ?_, ?_⟩
        · intro s hs1 hs2
          have : s = acc := le_antisymm hs2 hs1
          rw [this]; exact hacc
        · rw [show acc - 1 = t from by omega]; exact heq

theorem blockScanRight_go (values : List String) (val : String) (total : Int)
    (_hval : val ≠ "X") :
    ∀ (m : Nat) (t acc : Int), t + (m : Int) = total →
    ((t = acc ∧ t < total) ∨ t - 1 = acc) → getValueAt values acc = val →
    (∀ s, acc ≤ s → s < t → getValueAt values s = val) →
    (acc ≤ blockScanRight values val (intRangeI t m) acc ∧
      blockScanRight values val (intRangeI t m) acc ≤ total - 1) ∧
    (∀ s, acc ≤ s → s ≤ blockScanRight values val (intRangeI t m) acc →
      getValueAt values s = val) ∧
    (getValueAt values (blockScanRight values val (intRangeI t m) acc + 1) ≠ val ∨
      blockScanRight values val (intRangeI t m) acc = total - 1) := by
  intro m
  induction m with
  | zero =>
    intro t acc hm hta hacc hinv
    rw [show intRangeI t 0 = [] from rfl]
    rw [show blockScanRight values val [] acc = acc from rfl]
    have hacc' : acc = total - 1 := by
      rcases hta with ⟨h1, h2⟩ | h1 <;> omega
    refine ⟨⟨le_refl acc, by omega⟩, ?_, Or.inr hacc'⟩
    intro s hs1 hs2
    have : s = acc := le_antisymm hs2 hs1
    rw [this]; exact hacc
  | succ k ih =>
    intro t acc hm hta hacc hinv
    rw [show intRangeI t (k + 1) = t :: intRangeI (t + 1) k from rfl]
    by_cases heq : getValueAt values t = val
    · rw [show blockScanRight values val (t :: intRangeI (t + 1) k) acc =
        blockScanRight values val (intRangeI (t + 1) k) t from by
          simp [blockScanRight, heq]]
      have := ih (t + 1) t (by push_cast at hm ⊢; omega) (Or.inr (by omega)) heq
        (fun s hs1 hs2 => by
          have : s = t := by omega
          rw [this]; exact heq)
      obtain ⟨⟨hr0, hrle⟩, hcov, hmax⟩ := this
      have hacct : acc ≤ t := by rcases hta with ⟨h, _⟩ | h <;> omega
      refine ⟨⟨le_trans hacct hr0, hrle⟩, ?_, hmax⟩
      intro s hs1 hs2
      by_cases hst : t ≤ s
      · exact hcov s hst hs2
      · exact hinv s hs1 (by omega)
    · rw [show blockScanRight values val (t :: intRangeI (t + 1) k) acc = acc from by
        simp [blockScanRight, heq]]
      rcases hta with ⟨h1, _⟩ | h1
      · exact absurd (h1 ▸ hacc) heq
      · refine ⟨⟨le_refl acc, by push_cast at hm; omega⟩, ?_, ?_⟩
        · intro s hs1 hs2
          have : s = acc := le_antisymm hs2 hs1
          rw [this]; exact hacc
        · exact Or.inl (by rw [show acc + 1 = t from by omega]; exact heq)

/-- Full specification of `get_block_bounds` on a defined value: the
returned bounds are an in-range run of cells equal to the value, the run
covers the clicked cycle, the cell left of the run differs, and the cell
right of the run differs unless the right scan was cut off at
`total_cycles - 1`. -/
theorem getBlockBounds_spec (values : List String) (totalCycles cycleIdx : Int)
    (a b : Int) (v : String)
    (heq : getBlockBounds values totalCycles cycleIdx = (a, b, v)) (hv : v ≠ "X") :
    (0 ≤ a ∧ a ≤ cycleIdx ∧ cycleIdx ≤ b ∧ b ≤ totalCycles - 1) ∧
    (∀ t, a ≤ t → t ≤ b → getValueAt values t = v) ∧
    getValueAt values (a - 1) ≠ v ∧
    (getValueAt values (b + 1) ≠ v ∨ b = totalCycles - 1) := by
  by_cases hrange : cycleIdx < 0 ∨ totalCycles ≤ cycleIdx
  · rw [getBlockBounds, if_pos hrange] at heq
    cases heq
    exact absurd rfl hv
  · push_neg at hrange
    obtain ⟨h0, h1⟩ := hrange
    rw [getBlockBounds, if_neg (by omega)] at heq
    by_cases hX : getValueAt values cycleIdx ≠ "X"
    · rw [if_pos hX] at heq
      injection heq with heqa heq23
      injection heq23 with heqb heqv
      subst heqa; subst heqb; subst heqv
      have hleft := blockScanLeft_go values (getValueAt values cycleIdx) hX
        (cycleIdx - 0 + 1).toNat cycleIdx cycleIdx (by omega) (by omega)
        (Or.inl rfl) rfl (fun s hs1 hs2 => by omega)
      have hright := blockScanRight_go values (getValueAt values cycleIdx) totalCycles hX
        (totalCycles - cycleIdx).toNat cycleIdx cycleIdx (by omega)
        (Or.inl ⟨rfl, h1⟩) rfl (fun s hs1 hs2 => by omega)
      rw [show pyRangeDown cycleIdx 0 = descRangeI cycleIdx (cycleIdx - 0 + 1).toNat from rfl]
      rw [show pyRange cycleIdx totalCycles =
        intRangeI cycleIdx (totalCycles - cycleIdx).toNat from rfl]
      obtain ⟨⟨hL0, hLle⟩, hLcov, hLmax⟩ := hleft
      obtain ⟨⟨hR0, hRle⟩, hRcov, hRmax⟩ := hright
      refine ⟨⟨hL0, hLle, hR0, hRle⟩, ?_, hLmax, hRmax⟩
      intro t ht1 ht2
      by_cases htc : t ≤ cycleIdx
      · exact hLcov t ht1 htc
      · exact hRcov t (by omega) ht2
    · rw [if_neg hX] at heq
      push_neg at hX
      cases heq
      exact absurd hX hv

/-! ## Claim C1: block locator closure and maximality -/

/-- Claim C1 (amended): for every signal whose value array does not extend
past `totalCycles`, if `get_block_bounds(s, t) = (a, b, v)` with
`v ≠ 'X'`, then every `t'` in `[a, b]` satisfies
`get_value_at(s, t') = v`, and the neighbouring cells differ:
`get_value_at(s, a-1) ≠ v` and `get_value_at(s, b+1) ≠ v`.  The amendment
(the hypothesis `values.length ≤ totalCycles`) is forced because the right
scan of `get_block_bounds` stops at `total_cycles - 1`, so right-edge
maximality fails when the array continues past `totalCycles` with the same
value (see `claim_C1_counterexample`). -/
theorem claim_C1 (values : List String) (totalCycles cycleIdx a b : Int) (v : String)
    (hlen : (values.length : Int) ≤ totalCycles)
    (heq : getBlockBounds values totalCycles cycleIdx = (a, b, v)) (hv : v ≠ "X") :
    (∀ t, a ≤ t → t ≤ b → getValueAt values t = v) ∧
    getValueAt values (a - 1) ≠ v ∧ getValueAt values (b + 1) ≠ v := by
  obtain ⟨⟨_, _, _, hble⟩, hcov, hlmax, hrmax⟩ :=
    getBlockBounds_spec values totalCycles cycleIdx a b v heq hv
  refine ⟨hcov, hlmax, ?_⟩
  rcases hrmax with h | h
  · exact h
  · rw [getValueAt_ge (by omega)]
    exact Ne.symm hv

/-- Claim C1 fails as stated: with `values = ['1','1','1']` and
`totalCycles = 2`, `get_block_bounds` at cycle 1 returns `(0, 1, '1')`
with a defined value, yet the right neighbour `get_value_at(s, 2)` still
equals `'1'` — the run is not maximal because the right scan stops at
`total_cycles - 1` while the value array is longer. -/
theorem claim_C1_counterexample :
    getBlockBounds ["1", "1", "1"] 2 1 = (0, 1, "1") ∧
    ("1" : String) ≠ "X" ∧
    getValueAt ["1", "1", "1"] (1 + 1) = "1" := by
  refine ⟨by decide, by decide, by decide⟩

/-- Witness for `claim_C1` at a concrete input: the block of `'1'`s at
`[1, 2]` in `['X','1','1']` with `totalCycles = 3`. -/
theorem claim_C1_witness :
    (∀ t, 1 ≤ t → t ≤ 2 → getValueAt ["X", "1", "1"] t = "1") ∧
    getValueAt ["X", "1", "1"] (1 - 1) ≠ "1" ∧
    getValueAt ["X", "1", "1"] (2 + 1) ≠ "1" :=
  claim_C1 ["X", "1", "1"] 3 2 1 2 "1" (by decide) (by decide) (by decide)

/-! ## Undo/Redo manager lemmas -/

namespace UndoManager

theorem undo_of_concat {α : Type} (m : UndoManager α) (u : List α) (s : α)
    (h : m.undoStack = u ++ [s]) :
    undo m = (true,
      { project := s
        undoStack := u
        redoStack := m.redoStack ++ [m.project]
        pendingSnapshot := none }) := by
  simp [undo, h, List.getLast?_concat, List.dropLast_concat]

theorem redo_of_concat {α : Type} (m : UndoManager α) (r : List α) (s : α)
    (h : m.redoStack = r ++ [s]) :
    redo m = (true,
      { project := s
        undoStack := m.undoStack ++ [m.project]
        redoStack := r
        pendingSnapshot := none }) := by
  simp [redo, h, List.getLast?_concat, List.dropLast_concat]

theorem undoStep_pendingSnapshot {α : Type} (m : UndoManager α) :
    (undoStep m).pendingSnapshot = none := by
  unfold undoStep undo
  cases h : m.undoStack.getLast? <;> simp [h]

theorem redoStep_pendingSnapshot {α : Type} (m : UndoManager α) :
    (redoStep m).pendingSnapshot = none := by
  unfold redoStep redo
  cases h : m.redoStack.getLast? <;> simp [h]

theorem redoStep_undoStep {α : Type} (m : UndoManager α)
    (hp : m.pendingSnapshot = none) (hne : m.undoStack ≠ []) :
    redoStep (undoStep m) = m := by
  rcases List.eq_nil_or_concat m.undoStack with h | ⟨u, s, h⟩
  · exact absurd h hne
  · rw [List.concat_eq_append] at h
    have h1 := undo_of_concat m u s h
    rw [undoStep, h1]
    rw [redoStep, redo_of_concat _ m.redoStack m.project rfl]
    cases m
    simp_all

theorem commitEdit_of_pending_none {α : Type} (m : UndoManager α) (σ' : α)
    (h : m.pendingSnapshot = none) :
    commitEdit m σ' =
      { project := σ'
        undoStack := m.undoStack ++ [m.project]
        redoStack := []
        pendingSnapshot := none } := by
  simp [commitEdit, requestSnapshot, commitSnapshot, h]

theorem foldl_commitEdit {α : Type} (es : List α) (hne : es ≠ []) :
    ∀ (m : UndoManager α), m.pendingSnapshot = none →
    es.foldl commitEdit m =
      { project := lastState m.project es
        undoStack := m.undoStack ++ preStates m.project es
        redoStack := []
        pendingSnapshot := none } := by
  induction es with
  | nil => exact absurd rfl hne
  | cons e es ih =>
    intro m hm
    rw [List.foldl_cons, commitEdit_of_pending_none m e hm]
    cases hes : es with
    | nil =>
      subst hes
      simp [lastState, preStates]
    | cons f fs =>
      rw [← hes]
      have hne' : es ≠ [] := by rw [hes]; exact List.cons_ne_nil f fs
      rw [ih hne' _ rfl]
      simp [lastState, preStates, List.append_assoc]

theorem length_preStates {α : Type} (σ : α) (es : List α) :
    (preStates σ es).length = es.length := by
  induction es generalizing σ with
  | nil => rfl
  | cons e es ih => simp [preStates, ih]

theorem undo_redo_iterate_cancel {α : Type} :
    ∀ (k : Nat) (m : UndoManager α), m.pendingSnapshot = none →
    k ≤ m.undoStack.length →
    redoStep^[k] (undoStep^[k] m) = m := by
  intro k
  induction k with
  | zero => intro m _ _; rfl
  | succ k ih =>
    intro m hp hk
    rcases List.eq_nil_or_concat m.undoStack with h | ⟨u, s, h⟩
    · rw [h] at hk; simp at hk
    · rw [List.concat_eq_append] at h
      have hm' : undoStep m =
        { project := s
          undoStack := u
          redoStack := m.redoStack ++ [m.project]
          pendingSnapshot := none } := by
        rw [undoStep, undo_of_concat m u s h]
      rw [Function.iterate_succ_apply undoStep, Function.iterate_succ_apply' redoStep]
      have hp' : (undoStep m).pendingSnapshot = none := by rw [hm']
      have hk' : k ≤ (undoStep m).undoStack.length := by
        rw [hm']
        rw [h] at hk
        simp only [List.length_append, List.length_singleton] at hk
        simpa using by omega
      rw [ih (undoStep m) hp' hk']
      apply redoStep_undoStep m hp
      rw [h]
      exact List.append_ne_nil_of_right_ne_nil u (List.cons_ne_nil s [])

theorem undo_iterate_project {α : Type} :
    ∀ (k : Nat) (m : UndoManager α), k < m.undoStack.length →
    m.undoStack.reverse[k]? = some ((undoStep^[k + 1] m).project) := by
  intro k
  induction k with
  | zero =>
    intro m hk
    rcases List.eq_nil_or_concat m.undoStack with h | ⟨u, s, h⟩
    · rw [h] at hk; simp at hk
    · rw [List.concat_eq_append] at h
      rw [h, List.reverse_concat]
      rw [Function.iterate_one, undoStep, undo_of_concat m u s h]
      simp
  | succ k ih =>
    intro m hk
    rcases List.eq_nil_or_concat m.undoStack with h | ⟨u, s, h⟩
    · rw [h] at hk; simp at hk
    · rw [List.concat_eq_append] at h
      have hm' : undoStep m =
        { project := s
          undoStack := u
          redoStack := m.redoStack ++ [m.project]
          pendingSnapshot := none } := by
        rw [undoStep, undo_of_concat m u s h]
      have hlen : k < u.length := by
        simp only [h, List.length_append, List.length_singleton] at hk; omega
      have hlen' : k < (undoStep m).undoStack.length := by
        rw [hm']
        simpa using hlen
      have := ih (undoStep m) hlen'
      rw [Function.iterate_succ_apply undoStep]
      rw [← this, hm', h, List.reverse_concat]
      simp

end UndoManager

/-! ## Claim C10: history navigation clears the pending snapshot -/

/-- Claim C10: after any call to `undo()`, `redo()`, or `push_snapshot()`,
the pending snapshot is `None`; moreover `push_snapshot` pushes the
*current* project state, so a pending snapshot of an uncommitted gesture
is silently discarded and never enters the undo stack. -/
theorem claim_C10 {α : Type} (m : UndoManager α) :
    (UndoManager.pushSnapshot m).pendingSnapshot = none ∧
    (UndoManager.undo m).2.pendingSnapshot = none ∧
    (UndoManager.redo m).2.pendingSnapshot = none ∧
    (UndoManager.pushSnapshot m).undoStack = m.undoStack ++ [m.project] := by
  exact ⟨rfl, UndoManager.undoStep_pendingSnapshot m,
    UndoManager.redoStep_pendingSnapshot m, rfl⟩

/-! ## Claim C5: undo/redo stack symmetry -/

/-- Claim C5: starting from any quiescent manager state (no pending
snapshot), after any sequence of committed edits `E1..En`, performing
`undo()` n times and then `redo()` n times restores the manager — project
and both stacks — exactly, and after the `(k+1)`-th undo the observed
project state equals the snapshot taken before edit `E(n-k)` (the pushed
pre-states, read in reverse order). -/
theorem claim_C5 {α : Type} (m0 : UndoManager α) (h : m0.pendingSnapshot = none)
    (es : List α) :
    UndoManager.redoStep^[es.length]
      (UndoManager.undoStep^[es.length] (es.foldl UndoManager.commitEdit m0)) =
        es.foldl UndoManager.commitEdit m0 ∧
    ∀ k < es.length,
      (preStates m0.project es).reverse[k]? =
        some ((UndoManager.undoStep^[k + 1] (es.foldl UndoManager.commitEdit m0)).project) := by
  cases hes : es with
  | nil => exact ⟨rfl, fun k hk => by simp at hk⟩
  | cons e es' =>
    rw [← hes]
    have hne : es ≠ [] := by rw [hes]; exact List.cons_ne_nil e es'
    have hfold := UndoManager.foldl_commitEdit es hne m0 h
    constructor
    · apply UndoManager.undo_redo_iterate_cancel
      · rw [hfold]
      · rw [hfold]
        simp only [List.length_append, UndoManager.length_preStates]
        omega
    · intro k hk
      have hlen : k < (es.foldl UndoManager.commitEdit m0).undoStack.length := by
        rw [hfold]
        simp only [List.length_append, UndoManager.length_preStates]
        omega
      have := UndoManager.undo_iterate_project k (es.foldl UndoManager.commitEdit m0) hlen
      rw [← this, hfold]
      show ((preStates m0.project es).reverse)[k]? = _
      rw [List.reverse_append, List.getElem?_append_left
        (by rw [List.length_reverse, UndoManager.length_preStates]; exact hk)]

/-- Witness for `claim_C5`: two committed edits `0 → 1 → 2` on a manager
over `ℕ`, undone twice and redone twice. -/
theorem claim_C5_witness :
    (UndoManager.redoStep^[([1, 2] : List ℕ).length]
      (UndoManager.undoStep^[([1, 2] : List ℕ).length]
        (([1, 2] : List ℕ).foldl UndoManager.commitEdit ⟨0, [], [], none⟩)) =
      ([1, 2] : List ℕ).foldl UndoManager.commitEdit ⟨0, [], [], none⟩ ∧
    ∀ k < ([1, 2] : List ℕ).length,
      (preStates (0 : ℕ) [1, 2]).reverse[k]? =
        some ((UndoManager.undoStep^[k + 1]
          (([1, 2] : List ℕ).foldl UndoManager.commitEdit ⟨0, [], [], none⟩)).project)) :=
  claim_C5 ⟨0, [], [], none⟩ rfl [1, 2]

/-! ## Move gesture lemmas -/

theorem updateMove_signals (st : MoveState) (d : Int) :
    (updateMove st d).signals = st.signals := rfl

theorem foldl_updateMove_signals (deltas : List Int) :
    ∀ st : MoveState, (deltas.foldl updateMove st).signals = st.signals := by
  induction deltas with
  | nil => intro st; rfl
  | cons d ds ih =>
    intro st
    rw [List.foldl_cons, ih (updateMove st d), updateMove_signals]

/-- `updateMove` recomputes the preview fields from the gesture-start
snapshot and selection only, so applying it twice with the same delta is
the same as applying it once. -/
theorem updateMove_idem (st : MoveState) (d : Int) :
    updateMove (updateMove st d) d = updateMove st d := by
  obtain ⟨sig, snap, sel, pv, mnr, mdsc, mtc⟩ := st
  rfl

/-! ## Resize gesture lemmas -/

theorem allX_eq (l1 l2 : List String) (h1 : ∀ x ∈ l1, x = "X") (h2 : ∀ x ∈ l2, x = "X")
    (hlen : l1.length = l2.length) : l1 = l2 := by
  rw [List.eq_replicate_iff.2 ⟨rfl, h1⟩, List.eq_replicate_iff.2 ⟨rfl, h2⟩, hlen]

/-- Filling from an all-`'X'` list that was itself produced by the same
fill pipeline started from `[]` changes nothing: the writes are all `'X'`
and the length is already the pipeline's write bound. -/
theorem fillX_twice_eq (ts1 ts2 : List Int) (c : Prop) [Decidable c] (w : List String)
    (hw : w = if c then fillFold (fillFold [] "X" ts1) "X" ts2 else fillFold [] "X" ts1) :
    (if c then fillFold (fillFold w "X" ts1) "X" ts2 else fillFold w "X" ts1) = w := by
  have hnil : ∀ x ∈ ([] : List String), x = "X" := by intro x hx; cases hx
  by_cases hc : c
  · rw [if_pos hc] at hw ⊢
    subst hw
    apply allX_eq
    · exact fillFold_allX ts2 (fillFold_allX ts1
        (fillFold_allX ts2 (fillFold_allX ts1 hnil)))
    · exact fillFold_allX ts2 (fillFold_allX ts1 hnil)
    · simp only [length_fillFold, List.length_nil]
      omega
  · rw [if_neg hc] at hw ⊢
    subst hw
    apply allX_eq
    · exact fillFold_allX ts1 (fillFold_allX ts1 hnil)
    · exact fillFold_allX ts1 hnil
    · simp only [length_fillFold, List.length_nil]
      omega

/-- `applyResizeEdit` changes only the `values` field of the state. -/
theorem applyResizeEdit_fields (st : ResizeState) (m : EditMode) (cc : Int) :
    (applyResizeEdit st m cc).1 =
      { st with values := (applyResizeEdit st m cc).1.values } := by
  cases m <;> rfl

/-- Computation of one `updateResize` step when the edit mode is already
determined. -/
theorem updateResize_some_general (w vals : List String) (tot esc : Int) (ev : String)
    (eos eoe : Int) (iins : Bool) (M : EditMode) (cc diff : Int) :
    (updateResize ⟨w, tot, esc, ev, eos, eoe, vals, some M, iins⟩ cc diff).1 =
      (applyResizeEdit
        ⟨if vals.isEmpty then w else vals, tot, esc, ev, eos, eoe, vals, some M, iins⟩
        M (max 0 (min cc (tot - 1)))).1 := rfl

/-- Computation of one `updateResize` step when the edit mode is still
undetermined. -/
theorem updateResize_none_general (w vals : List String) (tot esc : Int) (ev : String)
    (eos eoe : Int) (iins : Bool) (cc diff : Int) :
    (updateResize ⟨w, tot, esc, ev, eos, eoe, vals, none, iins⟩ cc diff).1 =
      if diff.natAbs < 5 then
        ⟨if vals.isEmpty then w else vals, tot, esc, ev, eos, eoe, vals, none, iins⟩
      else
        (applyResizeEdit
          ⟨if vals.isEmpty then w else vals, tot, esc, ev, eos, eoe, vals,
            some (if diff < 0 then EditMode.START else EditMode.END), iins⟩
          (if diff < 0 then EditMode.START else EditMode.END)
          (max 0 (min cc (tot - 1)))).1 := by
  by_cases hd : diff.natAbs < 5
  · rw [if_pos hd]
    show (if diff.natAbs < 5 then _ else _ : ResizeState × Option (Int × Int)).1 = _
    rw [if_pos hd]
  · rw [if_neg hd]
    show (if diff.natAbs < 5 then _ else _ : ResizeState × Option (Int × Int)).1 = _
    rw [if_neg hd]

/-- The `updateResize` state transition has the once-applied state as a
fixed point: re-running the duration-edit branch with the same cursor
argument reproduces the same values and mode, because it always restarts
from the gesture snapshot (and, when the snapshot is the falsy empty
list, all writes are `'X'` writes over an already-all-`'X'` result). -/
theorem updateResize_fixpoint (st : ResizeState) (hwf : ResizeWF st) (cc diff : Int) :
    (updateResize (updateResize st cc diff).1 cc diff).1 = (updateResize st cc diff).1 := by
  obtain ⟨hv, h0, hse, het, hcons, hemp⟩ := hwf
  obtain ⟨vals, tot, esc, ev, eos, eoe, einit, emode, iins⟩ := st
  dsimp only at hv h0 hse het hcons hemp
  subst hv
  have key : ∀ (M : EditMode) (w : List String),
      w = (applyResizeEdit ⟨vals, tot, esc, ev, eos, eoe, vals, some M, iins⟩ M
        (max 0 (min cc (tot - 1)))).1.values →
      (updateResize ⟨w, tot, esc, ev, eos, eoe, vals, some M, iins⟩ cc diff).1 =
        ⟨w, tot, esc, ev, eos, eoe, vals, some M, iins⟩ := by
    intro M w hw
    rw [updateResize_some_general]
    by_cases hnil : vals = []
    · subst hnil
      have hevX : ev = "X" := hemp rfl
      subst hevX
      rw [show (if ([] : List String).isEmpty then w else ([] : List String)) = w from rfl]
      conv_lhs => rw [applyResizeEdit_fields]
      simp only [ResizeState.mk.injEq, and_true, true_and]
      cases M
      · exact fillX_twice_eq _ _ _ w hw
      · exact fillX_twice_eq _ _ _ w hw
    · have hne : vals.isEmpty = false := by
        cases vals
        · exact absurd rfl hnil
        · rfl
      rw [hne]
      rw [show (if (false : Bool) then w else vals) = vals from rfl]
      conv_lhs => rw [applyResizeEdit_fields]
      rw [← hw]
  cases emode with
  | none =>
    by_cases hd : diff.natAbs < 5
    · have hinner : (updateResize ⟨vals, tot, esc, ev, eos, eoe, vals, none, iins⟩
          cc diff).1 = ⟨vals, tot, esc, ev, eos, eoe, vals, none, iins⟩ := by
        rw [updateResize_none_general, if_pos hd, ite_self]
      rw [hinner]
      exact hinner
    · have hinner : (updateResize ⟨vals, tot, esc, ev, eos, eoe, vals, none, iins⟩
          cc diff).1 =
          ⟨(applyResizeEdit ⟨vals, tot, esc, ev, eos, eoe, vals,
              some (if diff < 0 then EditMode.START else EditMode.END), iins⟩
              (if diff < 0 then EditMode.START else EditMode.END)
              (max 0 (min cc (tot - 1)))).1.values,
            tot, esc, ev, eos, eoe, vals,
            some (if diff < 0 then EditMode.START else EditMode.END), iins⟩ := by
        rw [updateResize_none_general, if_neg hd, ite_self]
        conv_lhs => rw [applyResizeEdit_fields]
      rw [hinner]
      exact key _ _ rfl
  | some M =>
    have hinner : (updateResize ⟨vals, tot, esc, ev, eos, eoe, vals, some M, iins⟩
        cc diff).1 =
        ⟨(applyResizeEdit ⟨vals, tot, esc, ev, eos, eoe, vals, some M, iins⟩ M
            (max 0 (min cc (tot - 1)))).1.values,
          tot, esc, ev, eos, eoe, vals, some M, iins⟩ := by
      rw [updateResize_some_general, ite_self]
      conv_lhs => rw [applyResizeEdit_fields]
    rw [hinner]
    exact key M _ rfl

theorem getBlockBounds_X_case (values : List String) (total c : Int)
    (h0 : 0 ≤ c) (h1 : c < total) (hX : getValueAt values c = "X") :
    getBlockBounds values total c = (c, c, "X") := by
  unfold getBlockBounds
  rw [if_neg (by omega), if_neg (by simp [hX]), hX]

theorem getBlockBounds_val (values : List String) (total c : Int)
    (h0 : 0 ≤ c) (h1 : c < total) :
    (getBlockBounds values total c).2.2 = getValueAt values c := by
  unfold getBlockBounds
  rw [if_neg (by omega)]
  by_cases hX : getValueAt values c ≠ "X"
  · rw [if_pos hX]
  · rw [if_neg hX]

/-- The press handler establishes a well-formed gesture whenever the click
is inside the timeline. -/
theorem beginResize_wf (values : List String) (totalCycles t0 : Int)
    (cns isIns : Bool) (h0 : 0 ≤ t0) (h1 : t0 < totalCycles) :
    ResizeWF (beginResize values totalCycles t0 cns isIns) := by
  rcases hr : getBlockBounds values totalCycles t0 with ⟨a, b, v⟩
  have hval : v = getValueAt values t0 := by
    have := getBlockBounds_val values totalCycles t0 h0 h1
    rw [hr] at this
    exact this
  unfold ResizeWF
  simp only [beginResize, hr]
  by_cases hX : v = "X"
  · have hb : getBlockBounds values totalCycles t0 = (t0, t0, "X") :=
      getBlockBounds_X_case values totalCycles t0 h0 h1 (hval.symm.trans hX)
    have heq : ((t0, t0, "X") : Int × Int × String) = (a, b, v) := hb.symm.trans hr
    injection heq with ha hbv
    injection hbv with hbb hvv
    subst ha; subst hbb; subst hvv
    refine ⟨trivial, h0, le_refl _, h1, ?_, fun _ => rfl⟩
    intro t ht1 ht2
    have ht : t = t0 := le_antisymm ht2 ht1
    rw [ht]
    exact hval.symm
  · obtain ⟨⟨hA0, hAt, hTb, hBle⟩, hcov, _, _⟩ :=
      getBlockBounds_spec values totalCycles t0 a b v hr hX
    refine ⟨trivial, hA0, by omega, by omega, hcov, ?_⟩
    intro hempty
    exfalso
    apply hX
    rw [hval, hempty, getValueAt_ge (by simpa using h0)]

/-! ## Insert-mode collision scan lemmas -/

theorem valAt_eq_getValueAt (init : List String) (s : Int) (hs : 0 ≤ s) :
    (if s < (init.length : Int) then init.getD s.toNat "X" else "X") = getValueAt init s := by
  unfold getValueAt
  by_cases h : s < (init.length : Int)
  · rw [if_pos h, if_pos ⟨hs, h⟩]
  · rw [if_neg h, if_neg (by omega)]

theorem insertScanRight_ge (init : List String) (value : String) (tot : Int) :
    ∀ (m : Nat) (t : Int), t + (m : Int) = tot →
    t - 1 ≤ insertScanRight init value tot (intRangeI t m) := by
  intro m
  induction m with
  | zero => intro t hm; simp only [intRangeI, insertScanRight]; omega
  | succ k ih =>
    intro t hm
    rw [show intRangeI t (k + 1) = t :: intRangeI (t + 1) k from rfl]
    by_cases hft :
        ((if t < (init.length : Int) then init.getD t.toNat "X" else "X") ≠ "X" ∧
          (if t < (init.length : Int) then init.getD t.toNat "X" else "X") ≠ value)
    · rw [show insertScanRight init value tot (t :: intRangeI (t + 1) k) = t - 1 from by
        simp only [insertScanRight, if_pos hft]]
    · rw [show insertScanRight init value tot (t :: intRangeI (t + 1) k) =
        insertScanRight init value tot (intRangeI (t + 1) k) from by
          simp only [insertScanRight, if_neg hft]]
      have := ih (t + 1) (by push_cast at hm ⊢; omega)
      omega

theorem insertScanRight_le (init : List String) (value : String) (tot : Int) :
    ∀ (m : Nat) (t : Int), t + (m : Int) = tot →
    insertScanRight init value tot (intRangeI t m) ≤ tot - 1 := by
  intro m
  induction m with
  | zero => intro t hm; simp only [intRangeI, insertScanRight]; omega
  | succ k ih =>
    intro t hm
    rw [show intRangeI t (k + 1) = t :: intRangeI (t + 1) k from rfl]
    by_cases hft :
        ((if t < (init.length : Int) then init.getD t.toNat "X" else "X") ≠ "X" ∧
          (if t < (init.length : Int) then init.getD t.toNat "X" else "X") ≠ value)
    · rw [show insertScanRight init value tot (t :: intRangeI (t + 1) k) = t - 1 from by
        simp only [insertScanRight, if_pos hft]]
      push_cast at hm; omega
    · rw [show insertScanRight init value tot (t :: intRangeI (t + 1) k) =
        insertScanRight init value tot (intRangeI (t + 1) k) from by
          simp only [insertScanRight, if_neg hft]]
      exact ih (t + 1) (by push_cast at hm ⊢; omega)

theorem insertScanRight_no_foreign (init : List String) (value : String) (tot : Int) :
    ∀ (m : Nat) (t : Int), t + (m : Int) = tot →
    ∀ s, t ≤ s → s ≤ insertScanRight init value tot (intRangeI t m) → s < tot →
    ¬((if s < (init.length : Int) then init.getD s.toNat "X" else "X") ≠ "X" ∧
      (if s < (init.length : Int) then init.getD s.toNat "X" else "X") ≠ value) := by
  intro m
  induction m with
  | zero => intro t hm s hs1 hs2 hs3; omega
  | succ k ih =>
    intro t hm s hs1 hs2 hs3
    rw [show intRangeI t (k + 1) = t :: intRangeI (t + 1) k from rfl] at hs2
    by_cases hft :
        ((if t < (init.length : Int) then init.getD t.toNat "X" else "X") ≠ "X" ∧
          (if t < (init.length : Int) then init.getD t.toNat "X" else "X") ≠ value)
    · rw [show insertScanRight init value tot (t :: intRangeI (t + 1) k) = t - 1 from by
        simp only [insertScanRight, if_pos hft]] at hs2
      omega
    · rw [show insertScanRight init value tot (t :: intRangeI (t + 1) k) =
        insertScanRight init value tot (intRangeI (t + 1) k) from by
          simp only [insertScanRight, if_neg hft]] at hs2
      by_cases hst : s = t
      · rw [hst]; exact hft
      · exact ih (t + 1) (by push_cast at hm ⊢; omega) s (by omega) hs2 hs3

theorem insertScanLeft_le (init : List String) (value : String) :
    ∀ (m : Nat) (t : Int), t - (m : Int) = -1 →
    insertScanLeft init value (descRangeI t m) ≤ t + 1 := by
  intro m
  induction m with
  | zero => intro t hm; simp only [descRangeI, insertScanLeft]; omega
  | succ k ih =>
    intro t hm
    rw [show descRangeI t (k + 1) = t :: descRangeI (t - 1) k from rfl]
    by_cases hft :
        ((if t < (init.length : Int) then init.getD t.toNat "X" else "X") ≠ "X" ∧
          (if t < (init.length : Int) then init.getD t.toNat "X" else "X") ≠ value)
    · rw [show insertScanLeft init value (t :: descRangeI (t - 1) k) = t + 1 from by
        simp only [insertScanLeft, if_pos hft]]
    · rw [show insertScanLeft init value (t :: descRangeI (t - 1) k) =
        insertScanLeft init value (descRangeI (t - 1) k) from by
          simp only [insertScanLeft, if_neg hft]]
      have := ih (t - 1) (by push_cast at hm ⊢; omega)
      omega

theorem insertScanLeft_nonneg (init : List String) (value : String) :
    ∀ (m : Nat) (t : Int), t - (m : Int) = -1 →
    0 ≤ insertScanLeft init value (descRangeI t m) := by
  intro m
  induction m with
  | zero => intro t hm; simp only [descRangeI, insertScanLeft]; omega
  | succ k ih =>
    intro t hm
    rw [show descRangeI t (k + 1) = t :: descRangeI (t - 1) k from rfl]
    by_cases hft :
        ((if t < (init.length : Int) then init.getD t.toNat "X" else "X") ≠ "X" ∧
          (if t < (init.length : Int) then init.getD t.toNat "X" else "X") ≠ value)
    · rw [show insertScanLeft init value (t :: descRangeI (t - 1) k) = t + 1 from by
        simp only [insertScanLeft, if_pos hft]]
      push_cast at hm; omega
    · rw [show insertScanLeft init value (t :: descRangeI (t - 1) k) =
        insertScanLeft init value (descRangeI (t - 1) k) from by
          simp only [insertScanLeft, if_neg hft]]
      exact ih (t - 1) (by push_cast at hm ⊢; omega)

theorem insertScanLeft_no_foreign (init : List String) (value : String) :
    ∀ (m : Nat) (t : Int), t - (m : Int) = -1 →
    ∀ s, insertScanLeft init value (descRangeI t m) ≤ s → s ≤ t →
    ¬((if s < (init.length : Int) then init.getD s.toNat "X" else "X") ≠ "X" ∧
      (if s < (init.length : Int) then init.getD s.toNat "X" else "X") ≠ value) := by
  intro m
  induction m with
  | zero =>
    intro t hm s hs1 hs2
    simp only [descRangeI, insertScanLeft] at hs1
    omega
  | succ k ih =>
    intro t hm s hs1 hs2
    rw [show descRangeI t (k + 1) = t :: descRangeI (t - 1) k from rfl] at hs1
    by_cases hft :
        ((if t < (init.length : Int) then init.getD t.toNat "X" else "X") ≠ "X" ∧
          (if t < (init.length : Int) then init.getD t.toNat "X" else "X") ≠ value)
    · rw [show insertScanLeft init value (t :: descRangeI (t - 1) k) = t + 1 from by
        simp only [insertScanLeft, if_pos hft]] at hs1
      omega
    · rw [show insertScanLeft init value (t :: descRangeI (t - 1) k) =
        insertScanLeft init value (descRangeI (t - 1) k) from by
          simp only [insertScanLeft, if_neg hft]] at hs1
      by_cases hst : s = t
      · rw [hst]; exact hft
      · exact ih (t - 1) (by push_cast at hm ⊢; omega) s hs1 (by omega)

/-- The collision bounds bracket the original block in both modes. -/
theorem resizeBounds_bracket (st : ResizeState) (hwf : ResizeWF st) :
    0 ≤ resizeLeftBound st ∧ resizeLeftBound st ≤ st.editOrigStart ∧
    st.editOrigEnd ≤ resizeRightBound st ∧ resizeRightBound st ≤ st.totalCycles - 1 := by
  obtain ⟨hv, h0, hse, het, hcons, hemp⟩ := hwf
  unfold resizeLeftBound resizeRightBound
  unfold pyRangeDown pyRange
  by_cases hins : st.isInsertMode
  · rw [if_pos hins, if_pos hins]
    have hmL : (st.editOrigStart - 1) - ((st.editOrigStart - 1 - 0 + 1).toNat : Int) = -1 := by
      omega
    have hmR : (st.editOrigEnd + 1) + ((st.totalCycles - (st.editOrigEnd + 1)).toNat : Int) =
        st.totalCycles := by omega
    refine ⟨?_, ?_, ?_, ?_⟩
    · exact insertScanLeft_nonneg _ _ _ _ hmL
    · have := insertScanLeft_le st.editInitialValues st.editValue _ _ hmL
      omega
    · have := insertScanRight_ge st.editInitialValues st.editValue st.totalCycles _ _ hmR
      omega
    · exact insertScanRight_le _ _ _ _ _ hmR
  · rw [if_neg hins, if_neg hins]
    omega

/-- Cells strictly between the original block and an insert-mode bound
hold `'X'` or the block's own value in the gesture snapshot. -/
theorem resizeBounds_no_foreign (st : ResizeState) (hwf : ResizeWF st)
    (hins : st.isInsertMode = true) (s : Int)
    (hforeign : getValueAt st.editInitialValues s ≠ "X" ∧
      getValueAt st.editInitialValues s ≠ st.editValue) :
    ¬(resizeLeftBound st ≤ s ∧ s < st.editOrigStart) ∧
    ¬(st.editOrigEnd < s ∧ s ≤ resizeRightBound st) := by
  obtain ⟨hv, h0, hse, het, hcons, hemp⟩ := hwf
  constructor
  · rintro ⟨hs1, hs2⟩
    have hs0 : 0 ≤ s := le_trans (resizeBounds_bracket st
      ⟨hv, h0, hse, het, hcons, hemp⟩).1 hs1
    unfold resizeLeftBound pyRangeDown at hs1
    rw [if_pos hins] at hs1
    have hmL : (st.editOrigStart - 1) - ((st.editOrigStart - 1 - 0 + 1).toNat : Int) = -1 := by
      omega
    refine insertScanLeft_no_foreign st.editInitialValues st.editValue _ _ hmL s hs1
      (by omega) ?_
    rw [valAt_eq_getValueAt _ _ hs0]
    exact hforeign
  · rintro ⟨hs1, hs2⟩
    have hs0 : 0 ≤ s := by omega
    unfold resizeRightBound pyRange at hs2
    rw [if_pos hins] at hs2
    have hmR : (st.editOrigEnd + 1) + ((st.totalCycles - (st.editOrigEnd + 1)).toNat : Int) =
        st.totalCycles := by omega
    have hstot : s < st.totalCycles := by
      have := insertScanRight_le st.editInitialValues st.editValue st.totalCycles _ _ hmR
      omega
    refine insertScanRight_no_foreign st.editInitialValues st.editValue st.totalCycles _ _
      hmR s (by omega) hs2 hstot ?_
    rw [valAt_eq_getValueAt _ _ hs0]
    exact hforeign

/-- Either `updateResize` early-returns with the restored snapshot, or its
values are those of `applyResizeEdit` started from the snapshot with some
mode. -/
theorem updateResize_values_cases (st : ResizeState)
    (hv : st.values = st.editInitialValues) (cc diff : Int) :
    (updateResize st cc diff).1.values = st.editInitialValues ∨
    ∃ M : EditMode, (updateResize st cc diff).1.values =
      (applyResizeEdit st M (max 0 (min cc (st.totalCycles - 1)))).1.values := by
  obtain ⟨vals, tot, esc, ev, eos, eoe, einit, emode, iins⟩ := st
  dsimp only at hv ⊢
  subst hv
  cases emode with
  | none =>
    by_cases hd : diff.natAbs < 5
    · left
      rw [updateResize_none_general, if_pos hd, ite_self]
    · right
      refine ⟨if diff < 0 then EditMode.START else EditMode.END, ?_⟩
      rw [updateResize_none_general, if_neg hd, ite_self]
      by_cases hdlt : diff < 0
      · simp only [if_pos hdlt]
        rfl
      · simp only [if_neg hdlt]
        rfl
  | some M =>
    right
    exact ⟨M, by rw [updateResize_some_general, ite_self]⟩

/-- `updateResize` never changes `total_cycles`. -/
theorem updateResize_totalCycles (st : ResizeState) (cc diff : Int) :
    (updateResize st cc diff).1.totalCycles = st.totalCycles := by
  obtain ⟨vals, tot, esc, ev, eos, eoe, einit, emode, iins⟩ := st
  cases emode with
  | none =>
    by_cases hd : diff.natAbs < 5
    · rw [updateResize_none_general, if_pos hd]
    · rw [updateResize_none_general, if_neg hd]
      conv_lhs => rw [applyResizeEdit_fields]
  | some M =>
    rw [updateResize_some_general]
    conv_lhs => rw [applyResizeEdit_fields]

/-- The `(final_start, final_end)` pair emitted by `updateResize`, when
present, is the clamped pair of `applyResizeEdit` for some mode. -/
theorem updateResize_snd_cases (st : ResizeState)
    (hv : st.values = st.editInitialValues) (cc diff : Int) :
    (updateResize st cc diff).2 = none ∨
    ∃ M : EditMode, (updateResize st cc diff).2 =
      some (applyResizeEdit st M (max 0 (min cc (st.totalCycles - 1)))).2 := by
  obtain ⟨vals, tot, esc, ev, eos, eoe, einit, emode, iins⟩ := st
  dsimp only at hv ⊢
  subst hv
  cases emode with
  | none =>
    by_cases hd : diff.natAbs < 5
    · left
      show (if diff.natAbs < 5 then _ else _ : ResizeState × Option (Int × Int)).2 = none
      rw [if_pos hd]
    · right
      refine ⟨if diff < 0 then EditMode.START else EditMode.END, ?_⟩
      show (if diff.natAbs < 5 then _ else _ : ResizeState × Option (Int × Int)).2 = _
      rw [if_neg hd]
      by_cases hdlt : diff < 0
      · simp only [if_pos hdlt]
        rfl
      · simp only [if_neg hdlt]
        rfl
  | some M =>
    right
    refine ⟨M, ?_⟩
    show some (applyResizeEdit _ M _).2 = _
    dsimp only
    rw [ite_self]

theorem applyResizeEdit_snd_END (st : ResizeState) (cc' : Int) :
    (applyResizeEdit st EditMode.END cc').2 =
      (st.editOrigStart, resizeFinalEnd st cc') := rfl

theorem applyResizeEdit_snd_START (st : ResizeState) (cc' : Int) :
    (applyResizeEdit st EditMode.START cc').2 =
      (resizeFinalStart st cc', st.editOrigEnd) := rfl

/-- Positional specification of one mode application: every cell is
unchanged, or filled with the block's value inside the collision bounds
and the timeline, or cleared to `'X'` inside the original block. -/
theorem applyResizeEdit_values_spec (st : ResizeState) (hwf : ResizeWF st)
    (M : EditMode) (cc' t : Int) :
    getValueAt (applyResizeEdit st M cc').1.values t =
      getValueAt st.editInitialValues t ∨
    (getValueAt (applyResizeEdit st M cc').1.values t = st.editValue ∧
      resizeLeftBound st ≤ t ∧ t ≤ resizeRightBound st ∧ 0 ≤ t ∧ t < st.totalCycles) ∨
    (getValueAt (applyResizeEdit st M cc').1.values t = "X" ∧
      st.editOrigStart ≤ t ∧ t ≤ st.editOrigEnd) := by
  obtain ⟨hlb0, hlbs, herb, hrbt⟩ := resizeBounds_bracket st hwf
  obtain ⟨hv, h0, hse, het, hcons, hemp⟩ := hwf
  cases M
  · -- START mode
    have hfs1 : resizeLeftBound st ≤ resizeFinalStart st cc' := le_max_left _ _
    have hfs2 : resizeFinalStart st cc' ≤ st.editOrigEnd :=
      max_le (by omega) (min_le_right _ _)
    rw [show (applyResizeEdit st EditMode.START cc').1.values =
      (if st.editOrigStart < resizeFinalStart st cc' then
        fillFold (fillFold st.values st.editValue
          (pyRange (resizeFinalStart st cc') (st.editOrigEnd + 1))) "X"
          (pyRange st.editOrigStart (resizeFinalStart st cc'))
      else fillFold st.values st.editValue
        (pyRange (resizeFinalStart st cc') (st.editOrigEnd + 1))) from rfl]
    have hts1 : ∀ s ∈ pyRange (resizeFinalStart st cc') (st.editOrigEnd + 1), 0 ≤ s := by
      intro s hs
      rw [mem_pyRange] at hs
      omega
    have hts2 : ∀ s ∈ pyRange st.editOrigStart (resizeFinalStart st cc'), 0 ≤ s := by
      intro s hs
      rw [mem_pyRange] at hs
      omega
    by_cases hc : st.editOrigStart < resizeFinalStart st cc'
    · rw [if_pos hc, getValueAt_fillFold _ _ _ _ hts2]
      by_cases ht2 : t ∈ pyRange st.editOrigStart (resizeFinalStart st cc')
      · rw [if_pos ht2]
        rw [mem_pyRange] at ht2
        exact Or.inr (Or.inr ⟨rfl, by omega, by omega⟩)
      · rw [if_neg ht2, getValueAt_fillFold _ _ _ _ hts1]
        by_cases ht1 : t ∈ pyRange (resizeFinalStart st cc') (st.editOrigEnd + 1)
        · rw [if_pos ht1]
          rw [mem_pyRange] at ht1
          exact Or.inr (Or.inl ⟨rfl, by omega, by omega, by omega, by omega⟩)
        · rw [if_neg ht1, hv]
          exact Or.inl rfl
    · rw [if_neg hc, getValueAt_fillFold _ _ _ _ hts1]
      by_cases ht1 : t ∈ pyRange (resizeFinalStart st cc') (st.editOrigEnd + 1)
      · rw [if_pos ht1]
        rw [mem_pyRange] at ht1
        exact Or.inr (Or.inl ⟨rfl, by omega, by omega, by omega, by omega⟩)
      · rw [if_neg ht1, hv]
        exact Or.inl rfl
  · -- END mode
    have hfe1 : st.editOrigStart ≤ resizeFinalEnd st cc' := le_max_left _ _
    have hfe2 : resizeFinalEnd st cc' ≤ resizeRightBound st :=
      max_le (by omega) (min_le_right _ _)
    rw [show (applyResizeEdit st EditMode.END cc').1.values =
      (if resizeFinalEnd st cc' < st.editOrigEnd then
        fillFold (fillFold st.values st.editValue
          (pyRange st.editOrigStart (resizeFinalEnd st cc' + 1))) "X"
          (pyRange (resizeFinalEnd st cc' + 1) (st.editOrigEnd + 1))
      else fillFold st.values st.editValue
        (pyRange st.editOrigStart (resizeFinalEnd st cc' + 1))) from rfl]
    have hts1 : ∀ s ∈ pyRange st.editOrigStart (resizeFinalEnd st cc' + 1), 0 ≤ s := by
      intro s hs
      rw [mem_pyRange] at hs
      omega
    have hts2 : ∀ s ∈ pyRange (resizeFinalEnd st cc' + 1) (st.editOrigEnd + 1), 0 ≤ s := by
      intro s hs
      rw [mem_pyRange] at hs
      omega
    by_cases hc : resizeFinalEnd st cc' < st.editOrigEnd
    · rw [if_pos hc, getValueAt_fillFold _ _ _ _ hts2]
      by_cases ht2 : t ∈ pyRange (resizeFinalEnd st cc' + 1) (st.editOrigEnd + 1)
      · rw [if_pos ht2]
        rw [mem_pyRange] at ht2
        exact Or.inr (Or.inr ⟨rfl, by omega, by omega⟩)
      · rw [if_neg ht2, getValueAt_fillFold _ _ _ _ hts1]
        by_cases ht1 : t ∈ pyRange st.editOrigStart (resizeFinalEnd st cc' + 1)
        · rw [if_pos ht1]
          rw [mem_pyRange] at ht1
          exact Or.inr (Or.inl ⟨rfl, by omega, by omega, by omega, by omega⟩)
        · rw [if_neg ht1, hv]
          exact Or.inl rfl
    · rw [if_neg hc, getValueAt_fillFold _ _ _ _ hts1]
      by_cases ht1 : t ∈ pyRange st.editOrigStart (resizeFinalEnd st cc' + 1)
      · rw [if_pos ht1]
        rw [mem_pyRange] at ht1
        exact Or.inr (Or.inl ⟨rfl, by omega, by omega, by omega, by omega⟩)
      · rw [if_neg ht1, hv]
        exact Or.inl rfl

/-- During a resize drag, cells at or beyond `total_cycles` are never
written. -/
theorem updateResize_no_write_beyond (st : ResizeState) (hwf : ResizeWF st)
    (cc diff t : Int) (ht : st.totalCycles ≤ t) :
    getValueAt (updateResize st cc diff).1.values t =
      getValueAt st.editInitialValues t := by
  rcases updateResize_values_cases st hwf.1 cc diff with h | ⟨M, h⟩
  · rw [h]
  · rw [h]
    rcases applyResizeEdit_values_spec st hwf M (max 0 (min cc (st.totalCycles - 1))) t
      with h2 | ⟨_, _, _, _, h2⟩ | ⟨_, _, h2⟩
    · exact h2
    · omega
    · have := hwf.2.2.2.1
      omega

/-- During an insert-mode resize drag, cells whose snapshot value is
defined and different from the block's value are never written. -/
theorem updateResize_foreign_preserved (st : ResizeState) (hwf : ResizeWF st)
    (hins : st.isInsertMode = true) (cc diff t : Int)
    (hf1 : getValueAt st.editInitialValues t ≠ "X")
    (hf2 : getValueAt st.editInitialValues t ≠ st.editValue) :
    getValueAt (updateResize st cc diff).1.values t =
      getValueAt st.editInitialValues t := by
  have hnf := resizeBounds_no_foreign st hwf hins t ⟨hf1, hf2⟩
  have hcons := hwf.2.2.2.2.1
  rcases updateResize_values_cases st hwf.1 cc diff with h | ⟨M, h⟩
  · rw [h]
  · rw [h]
    rcases applyResizeEdit_values_spec st hwf M (max 0 (min cc (st.totalCycles - 1))) t
      with h2 | ⟨_, hb1, hb2, _, _⟩ | ⟨_, hb1, hb2⟩
    · exact h2
    · exfalso
      by_cases hlow : t < st.editOrigStart
      · exact hnf.1 ⟨hb1, hlow⟩
      · by_cases hhigh : st.editOrigEnd < t
        · exact hnf.2 ⟨hhigh, hb2⟩
        · exact hf2 (hcons t (by omega) (by omega))
    · exact absurd (hcons t hb1 hb2) hf2

/-! ## Claim C3: insert-mode resize never overwrites a foreign block -/

/-- Claim C3: in Insert mode the emitted active edge stays within the
collision bounds obtained by scanning outward from the original block
(`left_bound ≤ final_start` and `final_end ≤ right_bound`), and no cell
whose snapshot value is neither `'X'` nor the block's own value is ever
rewritten by the drag. -/
theorem claim_C3 (st : ResizeState) (hwf : ResizeWF st)
    (hins : st.isInsertMode = true) (cc diff : Int) :
    (∀ fs fe : Int, (updateResize st cc diff).2 = some (fs, fe) →
      resizeLeftBound st ≤ fs ∧ fe ≤ resizeRightBound st) ∧
    (∀ t, getValueAt st.editInitialValues t ≠ "X" →
      getValueAt st.editInitialValues t ≠ st.editValue →
      getValueAt (updateResize st cc diff).1.values t =
        getValueAt st.editInitialValues t) := by
  obtain ⟨hlb0, hlbs, herb, hrbt⟩ := resizeBounds_bracket st hwf
  have hse := hwf.2.2.1
  constructor
  · intro fs fe hsome
    rcases updateResize_snd_cases st hwf.1 cc diff with h | ⟨M, h⟩
    · rw [h] at hsome; cases hsome
    · rw [h] at hsome
      injection hsome with hpair
      cases M
      · rw [applyResizeEdit_snd_START] at hpair
        injection hpair with hfs hfe
        subst hfs; subst hfe
        exact ⟨le_max_left _ _, by omega⟩
      · rw [applyResizeEdit_snd_END] at hpair
        injection hpair with hfs hfe
        subst hfs; subst hfe
        refine ⟨by omega, max_le (by omega) (min_le_right _ _)⟩
  · intro t hf1 hf2
    exact updateResize_foreign_preserved st hwf hins cc diff t hf1 hf2

/-- Witness for `claim_C3`: the spec's scenario — a block of `'A'` at
`[5,10]` immediately followed by a block of `'B'` at `[11,15]`, End edge
dragged rightward in Insert mode.  The emitted edge pair is exactly
`(5, 10)` (clamped at 10) and cell 11 still holds `'B'`. -/
theorem claim_C3_witness :
    ((∀ fs fe : Int,
      (updateResize (beginResize
        ["X", "X", "X", "X", "X", "A", "A", "A", "A", "A", "A", "B", "B", "B", "B", "B"]
        16 8 false true) 14 20).2 = some (fs, fe) →
      resizeLeftBound (beginResize
        ["X", "X", "X", "X", "X", "A", "A", "A", "A", "A", "A", "B", "B", "B", "B", "B"]
        16 8 false true) ≤ fs ∧
      fe ≤ resizeRightBound (beginResize
        ["X", "X", "X", "X", "X", "A", "A", "A", "A", "A", "A", "B", "B", "B", "B", "B"]
        16 8 false true)) ∧
    (∀ t, getValueAt (beginResize
        ["X", "X", "X", "X", "X", "A", "A", "A", "A", "A", "A", "B", "B", "B", "B", "B"]
        16 8 false true).editInitialValues t ≠ "X" →
      getValueAt (beginResize
        ["X", "X", "X", "X", "X", "A", "A", "A", "A", "A", "A", "B", "B", "B", "B", "B"]
        16 8 false true).editInitialValues t ≠ (beginResize
        ["X", "X", "X", "X", "X", "A", "A", "A", "A", "A", "A", "B", "B", "B", "B", "B"]
        16 8 false true).editValue →
      getValueAt (updateResize (beginResize
        ["X", "X", "X", "X", "X", "A", "A", "A", "A", "A", "A", "B", "B", "B", "B", "B"]
        16 8 false true) 14 20).1.values t =
        getValueAt (beginResize
        ["X", "X", "X", "X", "X", "A", "A", "A", "A", "A", "A", "B", "B", "B", "B", "B"]
        16 8 false true).editInitialValues t)) ∧
    (updateResize (beginResize
      ["X", "X", "X", "X", "X", "A", "A", "A", "A", "A", "A", "B", "B", "B", "B", "B"]
      16 8 false true) 14 20).2 = some (5, 10) ∧
    getValueAt (updateResize (beginResize
      ["X", "X", "X", "X", "X", "A", "A", "A", "A", "A", "A", "B", "B", "B", "B", "B"]
      16 8 false true) 14 20).1.values 11 = "B" :=
  ⟨claim_C3 (beginResize
      ["X", "X", "X", "X", "X", "A", "A", "A", "A", "A", "A", "B", "B", "B", "B", "B"]
      16 8 false true)
    (beginResize_wf _ _ _ _ _ (by decide) (by decide)) rfl 14 20,
   by decide, by decide⟩

/-! ## Claim C4: resize and the timeline length -/

/-- Claim C4 (amended): during `updateResize` no cycle index at or beyond
`totalCycles` is ever filled and `totalCycles` never changes — the cursor
cycle is clamped to `totalCycles - 1` and both clamped edges stay below
`totalCycles`, so the resize branch cannot auto-expand the timeline (the
auto-expand-unless-auto-scrolling behavior belongs to the paint gesture,
not to the duration edit). -/
theorem claim_C4 (st : ResizeState) (hwf : ResizeWF st) (cc diff : Int) :
    (updateResize st cc diff).1.totalCycles = st.totalCycles ∧
    ∀ t, st.totalCycles ≤ t →
      getValueAt (updateResize st cc diff).1.values t =
        getValueAt st.editInitialValues t :=
  ⟨updateResize_totalCycles st cc diff,
   fun t ht => updateResize_no_write_beyond st hwf cc diff t ht⟩

/-- Claim C4 fails as stated: for the block of `'1'`s at `[5,10]` on a
12-cycle timeline, no drag whatsoever — not even one far past the end of
the timeline — makes the resize write at index 12 or grow `totalCycles`;
the existence of an expanding drag claimed by the spec is refuted. -/
theorem claim_C4_counterexample :
    ¬ ∃ cc diff : Int,
      ((updateResize (beginResize
          ["X", "X", "X", "X", "X", "1", "1", "1", "1", "1", "1"] 12 8 false false)
          cc diff).1.totalCycles ≠ 12 ∨
        getValueAt (updateResize (beginResize
          ["X", "X", "X", "X", "X", "1", "1", "1", "1", "1", "1"] 12 8 false false)
          cc diff).1.values 12 ≠ "X") := by
  rintro ⟨cc, diff, h | h⟩
  · exact h ((updateResize_totalCycles _ cc diff).trans rfl)
  · apply h
    rw [updateResize_no_write_beyond _
      (beginResize_wf ["X", "X", "X", "X", "X", "1", "1", "1", "1", "1", "1"] 12 8
        false false (by decide) (by decide)) cc diff 12 (by decide)]
    decide

/-- Witness for `claim_C4` at a concrete input. -/
theorem claim_C4_witness :
    (updateResize (beginResize ["1", "1"] 4 0 false false) 3 9).1.totalCycles =
      (beginResize ["1", "1"] 4 0 false false).totalCycles ∧
    ∀ t, (beginResize ["1", "1"] 4 0 false false).totalCycles ≤ t →
      getValueAt (updateResize (beginResize ["1", "1"] 4 0 false false) 3 9).1.values t =
        getValueAt (beginResize ["1", "1"] 4 0 false false).editInitialValues t :=
  claim_C4 (beginResize ["1", "1"] 4 0 false false)
    (beginResize_wf ["1", "1"] 4 0 false false (by decide) (by decide)) 3 9

/-! ## Claim C2: idempotent gesture replay -/

/-- Claim C2: after `beginResize` (respectively `beginMove`), calling
`updateResize` (respectively `updateMove`) any number of times with the
same argument yields exactly the same gesture state — in particular the
same signal value arrays — as calling it once, because each call
recomputes from the snapshot taken at gesture start. -/
theorem claim_C2 (st : ResizeState) (hwf : ResizeWF st) (cc diff : Int)
    (mst : MoveState) (d : Int) (n : Nat) :
    (fun s => (updateResize s cc diff).1)^[n + 1] st = (updateResize st cc diff).1 ∧
    (fun s => updateMove s d)^[n + 1] mst = updateMove mst d := by
  constructor
  · induction n with
    | zero =>
      rw [Function.iterate_succ_apply', Function.iterate_zero_apply]
    | succ k ih =>
      rw [Function.iterate_succ_apply' (fun s => (updateResize s cc diff).1), ih]
      exact updateResize_fixpoint st hwf cc diff
  · induction n with
    | zero =>
      rw [Function.iterate_succ_apply', Function.iterate_zero_apply]
    | succ k ih =>
      rw [Function.iterate_succ_apply' (fun s => updateMove s d), ih]
      exact updateMove_idem mst d

/-- Witness for `claim_C2`: a double replay on a two-cycle block of `'1'`s
and on a one-region move gesture. -/
theorem claim_C2_witness :
    ((fun s => (updateResize s 3 7).1)^[1 + 1] (beginResize ["X", "1", "1", "X"] 4 1 true true) =
      (updateResize (beginResize ["X", "1", "1", "X"] 4 1 true true) 3 7).1 ∧
    (fun s => updateMove s 2)^[1 + 1] (beginMove [["1"]] [(0, 0, 0)] 0) =
      updateMove (beginMove [["1"]] [(0, 0, 0)] 0) 2) :=
  claim_C2 (beginResize ["X", "1", "1", "X"] 4 1 true true)
    (beginResize_wf ["X", "1", "1", "X"] 4 1 true true (by decide) (by decide))
    3 7 (beginMove [["1"]] [(0, 0, 0)] 0) 2 1

/-! ## Claim C7: move gestures do not touch real data before commit -/

/-- Claim C7: for every selection and every sequence of `updateMove`
calls after `beginMove`, the real signals' value arrays are unchanged (the
preview lives in separate gesture fields), and abandoning the gesture
without commit (`cancelMove`) leaves every signal's values exactly as they
were at `beginMove`. -/
theorem claim_C7 (signals : List (List String)) (regions : List Region)
    (dragStartCycle : Int) (deltas : List Int) :
    (deltas.foldl updateMove (beginMove signals regions dragStartCycle)).signals =
      signals ∧
    cancelMove (deltas.foldl updateMove (beginMove signals regions dragStartCycle)) =
      signals := by
  have h := foldl_updateMove_signals deltas (beginMove signals regions dragStartCycle)
  exact ⟨h, h⟩

/-! ## Claim C9: negative-index writes -/

/-- Claim C9 (amended): `set_value_at` does not silently reject a negative
index.  The extension branch never fires for `t < 0`, so Python's
wrap-around indexing applies: with `-len(values) ≤ t < 0` the call
overwrites `values[len + t]` (no exception, existing cell mutated, length
unchanged), and with `t < -len(values)` it raises `IndexError`.  Call
sites avoid this by clamping to `≥ 0` before calling. -/
theorem claim_C9 (values : List String) (t : Int) (v : String) (ht : t < 0) :
    setValueAtInt values t v =
      (if 0 ≤ t + (values.length : Int) then
        Except.ok (values.set (t + values.length).toNat v)
      else Except.error "IndexError") ∧
    ∀ r, setValueAtInt values t v = Except.ok r → r.length = values.length := by
  have hchar : setValueAtInt values t v =
      (if 0 ≤ t + (values.length : Int) then
        Except.ok (values.set (t + values.length).toNat v)
      else Except.error "IndexError") := by
    unfold setValueAtInt
    rw [if_neg (by omega : ¬ ((values.length : Int) ≤ t)), if_neg (by omega : ¬ (0 ≤ t))]
  refine ⟨hchar, ?_⟩
  intro r hr
  rw [hchar] at hr
  by_cases hw : 0 ≤ t + (values.length : Int)
  · rw [if_pos hw] at hr
    injection hr with hr
    rw [← hr, List.length_set]
  · rw [if_neg hw] at hr
    cases hr

/-- Claim C9 fails as stated: `set_value_at(signal, -1, 'Z')` on
`values = ['0','1']` neither throws nor leaves the array unchanged — it
silently overwrites the last cell through Python's wrap-around indexing. -/
theorem claim_C9_counterexample :
    setValueAtInt ["0", "1"] (-1) "Z" = Except.ok ["0", "Z"] ∧
    (["0", "Z"] : List String) ≠ ["0", "1"] := by
  exact ⟨rfl, by decide⟩

/-- Witness for `claim_C9` at a concrete input. -/
theorem claim_C9_witness :
    (setValueAtInt ["0", "1"] (-1) "Z" =
      (if 0 ≤ (-1 : Int) + ((["0", "1"] : List String).length : Int) then
        Except.ok ((["0", "1"] : List String).set ((-1 : Int) + (["0", "1"] : List String).length).toNat "Z")
      else Except.error "IndexError") ∧
    ∀ r, setValueAtInt ["0", "1"] (-1) "Z" = Except.ok r →
      r.length = (["0", "1"] : List String).length) :=
  claim_C9 ["0", "1"] (-1) "Z" (by decide)

/-! ## Claim C8: malformed clipboard content -/

/-- Claim C8 is the spec's intent but the code slips: clipboard text that
is empty, fails `json.loads`, or parses to a non-list is indeed a silent
no-op, but a JSON *list with non-record entries* (such as `[1, 2, 3]`)
reaches the unguarded grouping loop, whose `item.get('rel_sig', 0)`
raises `AttributeError` instead of failing silently. -/
theorem claim_C8 :
    pasteSelectionReaches
      (some (PyVal.pyList [PyVal.pyInt 1, PyVal.pyInt 2, PyVal.pyInt 3])) =
      Except.error "AttributeError" ∧
    pasteSelectionReaches none = Except.ok false ∧
    pasteSelectionReaches (some (PyVal.pyStr "foreign text")) = Except.ok false ∧
    pasteSelectionReaches (some (PyVal.pyDict [])) = Except.ok false := by
  exact ⟨rfl, rfl, rfl, rfl⟩

/-! ## Clipboard lemmas -/

theorem length_intRangeI (a : Int) (n : Nat) : (intRangeI a n).length = n := by
  induction n generalizing a with
  | zero => rfl
  | succ k ih => simp [intRangeI, ih]

theorem getElem?_intRangeI (a : Int) (n : Nat) (j : Nat) :
    (intRangeI a n)[j]? = if j < n then some (a + j) else none := by
  induction n generalizing a j with
  | zero => simp [intRangeI]
  | succ k ih =>
    cases j with
    | zero => simp [intRangeI]
    | succ j' =>
      rw [show intRangeI a (k + 1) = a :: intRangeI (a + 1) k from rfl]
      rw [List.getElem?_cons_succ, ih]
      by_cases h : j' < k
      · rw [if_pos h, if_pos (by omega)]
        congr 1
        push_cast
        ring
      · rw [if_neg h, if_neg (by omega)]

theorem stampVals_length (vals : List String) :
    ∀ (buffer : List String) (off : Nat), (stampVals buffer off vals).length = buffer.length := by
  induction vals with
  | nil => intro buffer off; rfl
  | cons v vs ih =>
    intro buffer off
    show (stampVals (buffer.set off v) (off + 1) vs).length = _
    rw [ih, List.length_set]

theorem stampVals_getElem? (vals : List String) :
    ∀ (buffer : List String) (off q : Nat), off + vals.length ≤ buffer.length →
    (stampVals buffer off vals)[q]? =
      if off ≤ q ∧ q < off + vals.length then vals[q - off]? else buffer[q]? := by
  induction vals with
  | nil =>
    intro buffer off q _
    rw [if_neg (by simp)]
    rfl
  | cons v vs ih =>
    intro buffer off q h
    rw [List.length_cons] at h
    show (stampVals (buffer.set off v) (off + 1) vs)[q]? = _
    rw [ih (buffer.set off v) (off + 1) q (by rw [List.length_set]; omega)]
    by_cases h1 : off + 1 ≤ q ∧ q < off + 1 + vs.length
    · rw [if_pos h1, if_pos (by simp only [List.length_cons]; omega)]
      rw [show q - off = (q - (off + 1)) + 1 from by omega, List.getElem?_cons_succ]
    · rw [if_neg h1]
      by_cases h2 : q = off
      · subst h2
        rw [if_pos (by simp only [List.length_cons]; omega)]
        rw [List.getElem?_set_eq (by omega)]
        rw [show q - q = 0 from by omega, List.getElem?_cons_zero]
      · rw [List.getElem?_set_ne (by omega), if_neg (by simp only [List.length_cons]; omega)]

theorem foldl_min_le_init (l : List PasteItem) :
    ∀ a : Int, l.foldl (fun m i => min m i.start_offset) a ≤ a := by
  induction l with
  | nil => intro a; exact le_refl a
  | cons it rest ih =>
    intro a
    calc rest.foldl (fun m i => min m i.start_offset) (min a it.start_offset) ≤
        min a it.start_offset := ih _
      _ ≤ a := min_le_left _ _

theorem foldl_min_le_mem (l : List PasteItem) :
    ∀ (a : Int) (it : PasteItem), it ∈ l →
    l.foldl (fun m i => min m i.start_offset) a ≤ it.start_offset := by
  induction l with
  | nil => intro a it h; cases h
  | cons hd rest ih =>
    intro a it h
    rcases List.mem_cons.1 h with rfl | h
    · calc rest.foldl (fun m i => min m i.start_offset) (min a it.start_offset) ≤
          min a it.start_offset := foldl_min_le_init rest _
        _ ≤ it.start_offset := min_le_right _ _
    · exact ih _ it h

theorem foldl_min_ge (l : List PasteItem) (c : Int) :
    ∀ a : Int, c ≤ a → (∀ it ∈ l, c ≤ it.start_offset) →
    c ≤ l.foldl (fun m i => min m i.start_offset) a := by
  induction l with
  | nil => intro a ha _; exact ha
  | cons hd rest ih =>
    intro a ha hl
    exact ih _ (le_min ha (hl hd (List.mem_cons_self _ _)))
      (fun it h => hl it (List.mem_cons_of_mem _ h))

theorem groupMinOffset_le (items : List PasteItem) (it : PasteItem) (h : it ∈ items) :
    groupMinOffset items ≤ it.start_offset := by
  cases items with
  | nil => cases h
  | cons hd rest =>
    rcases List.mem_cons.1 h with rfl | h
    · exact foldl_min_le_init rest _
    · exact foldl_min_le_mem rest _ it h

theorem groupMinOffset_ge (items : List PasteItem) (c : Int)
    (hne : items ≠ []) (hall : ∀ it ∈ items, c ≤ it.start_offset) :
    c ≤ groupMinOffset items := by
  cases items with
  | nil => exact absurd rfl hne
  | cons hd rest =>
    exact foldl_min_ge rest c _ (hall hd (List.mem_cons_self _ _))
      (fun it h => hall it (List.mem_cons_of_mem _ h))

theorem foldl_max_ge_init (l : List PasteItem) :
    ∀ a : Int, a ≤ l.foldl (fun m i => max m (i.start_offset + (i.values.length : Int))) a := by
  induction l with
  | nil => intro a; exact le_refl a
  | cons it rest ih =>
    intro a
    rw [List.foldl_cons]
    exact le_trans (le_max_left _ _) (ih _)

theorem foldl_max_ge_mem (l : List PasteItem) :
    ∀ (a : Int) (it : PasteItem), it ∈ l →
    it.start_offset + (it.values.length : Int) ≤
      l.foldl (fun m i => max m (i.start_offset + (i.values.length : Int))) a := by
  induction l with
  | nil => intro a it h; cases h
  | cons hd rest ih =>
    intro a it h
    rw [List.foldl_cons]
    rcases List.mem_cons.1 h with rfl | h
    · exact le_trans (le_max_right _ _) (foldl_max_ge_init rest _)
    · exact ih _ it h

theorem groupMaxEnd_ge (items : List PasteItem) (it : PasteItem) (h : it ∈ items) :
    it.start_offset + (it.values.length : Int) ≤ groupMaxEnd items := by
  cases items with
  | nil => cases h
  | cons hd rest =>
    rcases List.mem_cons.1 h with rfl | h
    · exact foldl_max_ge_init rest _
    · exact foldl_max_ge_mem rest _ it h

theorem mem_pasteGroupKeys_aux (data : List PasteItem) :
    ∀ (acc : List Int) (x : Int),
    x ∈ data.foldl (fun ks it => if it.rel_sig ∈ ks then ks else ks ++ [it.rel_sig]) acc ↔
      x ∈ acc ∨ ∃ it ∈ data, it.rel_sig = x := by
  induction data with
  | nil => intro acc x; simp
  | cons hd rest ih =>
    intro acc x
    show x ∈ rest.foldl _ (if hd.rel_sig ∈ acc then acc else acc ++ [hd.rel_sig]) ↔ _
    rw [ih]
    by_cases hmem : hd.rel_sig ∈ acc
    · rw [if_pos hmem]
      constructor
      · rintro (h | h)
        · exact Or.inl h
        · exact Or.inr (by
            obtain ⟨it, hit, hrel⟩ := h
            exact ⟨it, List.mem_cons_of_mem _ hit, hrel⟩)
      · rintro (h | ⟨it, hit, hrel⟩)
        · exact Or.inl h
        · rcases List.mem_cons.1 hit with rfl | hit'
          · exact Or.inl (hrel ▸ hmem)
          · exact Or.inr ⟨it, hit', hrel⟩
    · rw [if_neg hmem]
      constructor
      · rintro (h | h)
        · rcases List.mem_append.1 h with h' | h'
          · exact Or.inl h'
          · rcases List.mem_singleton.1 h' with rfl
            exact Or.inr ⟨hd, List.mem_cons_self _ _, rfl⟩
        · obtain ⟨it, hit, hrel⟩ := h
          exact Or.inr ⟨it, List.mem_cons_of_mem _ hit, hrel⟩
      · rintro (h | ⟨it, hit, hrel⟩)
        · exact Or.inl (List.mem_append.2 (Or.inl h))
        · rcases List.mem_cons.1 hit with rfl | hit'
          · exact Or.inl (List.mem_append.2 (Or.inr (hrel ▸ List.mem_singleton_self _)))
          · exact Or.inr ⟨it, hit', hrel⟩

theorem mem_pasteGroupKeys (data : List PasteItem) (x : Int) :
    x ∈ pasteGroupKeys data ↔ ∃ it ∈ data, it.rel_sig = x := by
  rw [pasteGroupKeys, mem_pasteGroupKeys_aux]
  simp

theorem pasteGroupKeys_nodup_aux (data : List PasteItem) :
    ∀ acc : List Int, acc.Nodup →
    (data.foldl (fun ks it => if it.rel_sig ∈ ks then ks else ks ++ [it.rel_sig]) acc).Nodup := by
  induction data with
  | nil => intro acc h; exact h
  | cons hd rest ih =>
    intro acc h
    show (rest.foldl _ (if hd.rel_sig ∈ acc then acc else acc ++ [hd.rel_sig])).Nodup
    by_cases hmem : hd.rel_sig ∈ acc
    · rw [if_pos hmem]; exact ih acc h
    · rw [if_neg hmem]
      refine ih _ (List.Nodup.append h (List.nodup_singleton _) ?_)
      intro a ha ha'
      rcases List.mem_singleton.1 ha' with rfl
      exact hmem ha

theorem pasteGroupKeys_nodup (data : List PasteItem) : (pasteGroupKeys data).Nodup :=
  pasteGroupKeys_nodup_aux data [] List.nodup_nil

theorem stampFold_length (mo : Int) :
    ∀ (l : List PasteItem) (buf : List String),
    (l.foldl (fun b it => stampVals b (it.start_offset - mo).toNat it.values) buf).length =
      buf.length := by
  intro l
  induction l with
  | nil => intro buf; rfl
  | cons it rest ih =>
    intro buf
    rw [List.foldl_cons, ih, stampVals_length]

theorem pasteBuffer_length (items : List PasteItem) :
    (pasteBuffer items).length = (groupMaxEnd items - groupMinOffset items).toNat := by
  rw [pasteBuffer, stampFold_length, List.length_replicate]

/-- Stamping a list of agreeing items: a covered buffer position holds the
common source value, an uncovered one is untouched. -/
theorem stampFold_getElem? (mo : Int) (g : Int → String) :
    ∀ (l : List PasteItem) (buf : List String) (q : Nat),
    (∀ it ∈ l, mo ≤ it.start_offset) →
    (∀ it ∈ l, (it.start_offset - mo).toNat + it.values.length ≤ buf.length) →
    (∀ it ∈ l, ∀ j : Nat, j < it.values.length →
      it.values[j]? = some (g (it.start_offset + j))) →
    (l.foldl (fun b it => stampVals b (it.start_offset - mo).toNat it.values) buf)[q]? =
      if ∃ it ∈ l, (it.start_offset - mo).toNat ≤ q ∧
          q < (it.start_offset - mo).toNat + it.values.length then
        some (g (mo + q))
      else buf[q]? := by
  intro l
  induction l with
  | nil =>
    intro buf q _ _ _
    rw [if_neg (by simp)]
    rfl
  | cons it rest ih =>
    intro buf q hmo hbound hagree
    rw [List.foldl_cons]
    rw [ih (stampVals buf (it.start_offset - mo).toNat it.values) q
      (fun i h => hmo i (List.mem_cons_of_mem _ h))
      (fun i h => by
        rw [stampVals_length]
        exact hbound i (List.mem_cons_of_mem _ h))
      (fun i h => hagree i (List.mem_cons_of_mem _ h))]
    by_cases hrest : ∃ i ∈ rest, (i.start_offset - mo).toNat ≤ q ∧
        q < (i.start_offset - mo).toNat + i.values.length
    · rw [if_pos hrest, if_pos (by
        obtain ⟨i, hi, hc⟩ := hrest
        exact ⟨i, List.mem_cons_of_mem _ hi, hc⟩)]
    · rw [if_neg hrest]
      rw [stampVals_getElem? _ _ _ _ (hbound it (List.mem_cons_self _ _))]
      by_cases hit : (it.start_offset - mo).toNat ≤ q ∧
          q < (it.start_offset - mo).toNat + it.values.length
      · rw [if_pos hit, if_pos ⟨it, List.mem_cons_self _ _, hit⟩]
        rw [hagree it (List.mem_cons_self _ _) (q - (it.start_offset - mo).toNat)
          (by omega)]
        congr 1
        have hmo' : mo ≤ it.start_offset := hmo it (List.mem_cons_self _ _)
        have : ((it.start_offset - mo).toNat : Int) = it.start_offset - mo := by omega
        congr 1
        omega
      · rw [if_neg hit, if_neg (by
          rintro ⟨i, hi, hc⟩
          rcases List.mem_cons.1 hi with rfl | hi'
          · exact hit hc
          · exact hrest ⟨i, hi', hc⟩)]

/-- A covered position of the paste buffer holds the common source
value. -/
theorem pasteBuffer_covered (items : List PasteItem) (g : Int → String) (q : Nat)
    (hmo : ∀ it ∈ items, groupMinOffset items ≤ it.start_offset)
    (hagree : ∀ it ∈ items, ∀ j : Nat, j < it.values.length →
      it.values[j]? = some (g (it.start_offset + j)))
    (hcov : ∃ it ∈ items, (it.start_offset - groupMinOffset items).toNat ≤ q ∧
      q < (it.start_offset - groupMinOffset items).toNat + it.values.length) :
    (pasteBuffer items)[q]? = some (g (groupMinOffset items + q)) := by
  rw [pasteBuffer, stampFold_getElem? _ g items _ q hmo
    (fun it h => by
      rw [List.length_replicate]
      have h1 := groupMaxEnd_ge items it h
      have h2 := hmo it h
      omega)
    hagree]
  rw [if_pos hcov]

/-- Reading the freshly inserted buffer through the splice: position
`insert_pos + q` of the spliced signal is buffer position `q`. -/
theorem pasteSpliceSignal_getValueAt (sv buffer : List String) (insertPos : Int)
    (hpos : 0 ≤ insertPos) (q : Nat) (hq : q < buffer.length) :
    getValueAt (pasteSpliceSignal sv insertPos buffer) (insertPos + q) =
      (buffer[q]?).getD "X" := by
  rw [pasteSpliceSignal]
  set svp := if (sv.length : Int) < insertPos then
    sv ++ List.replicate (insertPos - sv.length).toNat "X" else sv with hsvp
  have hple : insertPos.toNat ≤ svp.length := by
    rw [hsvp]
    by_cases h : (sv.length : Int) < insertPos
    · rw [if_pos h]
      rw [List.length_append, List.length_replicate]
      omega
    · rw [if_neg h]
      omega
  rw [getValueAt_nonneg (by omega)]
  have htake : (svp.take insertPos.toNat).length = insertPos.toNat := by
    rw [List.length_take]
    omega
  have hidx : (insertPos + (q : Int)).toNat = insertPos.toNat + q := by omega
  rw [hidx]
  rw [List.getElem?_append]
  rw [if_pos (by
    rw [List.length_append, htake]
    omega)]
  rw [List.getElem?_append_right (by rw [htake]; omega), htake]
  rw [show insertPos.toNat + q - insertPos.toNat = q from by omega]

theorem pasteStep_length (data : List PasteItem) (aS aC : Int)
    (acc : List (List String) × List Region × Nat) (k : Int) :
    ((pasteStep data aS aC acc k).1).length = acc.1.length := by
  rw [pasteStep]
  by_cases h : 0 ≤ aS + k ∧ aS + k < (acc.1.length : Int)
  · rw [if_pos h]
    show (acc.1.set _ _).length = _
    rw [List.length_set]
  · rw [if_neg h]

theorem pasteFold_length (data : List PasteItem) (aS aC : Int) :
    ∀ (K : List Int) (acc : List (List String) × List Region × Nat),
    ((K.foldl (pasteStep data aS aC) acc).1).length = acc.1.length := by
  intro K
  induction K with
  | nil => intro acc; rfl
  | cons k ks ih =>
    intro acc
    rw [List.foldl_cons, ih, pasteStep_length]

theorem pasteStep_getD_ne (data : List PasteItem) (aS aC : Int)
    (acc : List (List String) × List Region × Nat) (k : Int) (idx : Nat)
    (hne : 0 ≤ aS + k → aS + k < (acc.1.length : Int) → (aS + k).toNat ≠ idx) :
    ((pasteStep data aS aC acc k).1).getD idx [] = acc.1.getD idx [] := by
  rw [pasteStep]
  by_cases h : 0 ≤ aS + k ∧ aS + k < (acc.1.length : Int)
  · rw [if_pos h]
    show (acc.1.set (aS + k).toNat _).getD idx [] = _
    rw [List.getD_eq_getElem?_getD, List.getElem?_set_ne (hne h.1 h.2),
      ← List.getD_eq_getElem?_getD]
  · rw [if_neg h]

theorem pasteFold_getD_ne (data : List PasteItem) (aS aC : Int) :
    ∀ (K : List Int) (acc : List (List String) × List Region × Nat) (idx : Nat),
    (∀ k ∈ K, 0 ≤ aS + k → aS + k < (acc.1.length : Int) → (aS + k).toNat ≠ idx) →
    ((K.foldl (pasteStep data aS aC) acc).1).getD idx [] = acc.1.getD idx [] := by
  intro K
  induction K with
  | nil => intro acc idx _; rfl
  | cons k ks ih =>
    intro acc idx hne
    rw [List.foldl_cons]
    rw [ih (pasteStep data aS aC acc k) idx (fun k' hk' h1 h2 => by
      refine hne k' (List.mem_cons_of_mem _ hk') h1 ?_
      rw [pasteStep_length] at h2
      exact h2)]
    exact pasteStep_getD_ne data aS aC acc k idx
      (fun h1 h2 => hne k (List.mem_cons_self _ _) h1 h2)

theorem length_pyRange (lo hi : Int) : (pyRange lo hi).length = (hi - lo).toNat := by
  rw [pyRange, length_intRangeI]

theorem getElem?_pyRange (lo hi : Int) (j : Nat) :
    (pyRange lo hi)[j]? = if j < (hi - lo).toNat then some (lo + j) else none := by
  rw [pyRange, getElem?_intRangeI]

/-- Running the apply loop over all keys: at the in-range target of key
`k`, not hit by any other key, the result is the splice of `k`'s group
into the original signal. -/
theorem pasteFold_getD_hit (data : List PasteItem) (aS aC : Int)
    (K1 K2 : List Int) (k : Int) (signals : List (List String))
    (hK1 : k ∉ K1) (hK2 : k ∉ K2)
    (hrange : 0 ≤ aS + k ∧ aS + k < (signals.length : Int)) :
    (((K1 ++ k :: K2).foldl (pasteStep data aS aC)
        (signals, ([] : List Region), (0 : Nat))).1).getD (aS + k).toNat [] =
      pasteSpliceSignal (signals.getD (aS + k).toNat [])
        (aC + groupMinOffset (data.filter (fun it => decide (it.rel_sig = k))))
        (pasteBuffer (data.filter (fun it => decide (it.rel_sig = k)))) := by
  rw [List.foldl_append, List.foldl_cons]
  set acc1 := K1.foldl (pasteStep data aS aC)
    (signals, ([] : List Region), (0 : Nat)) with hacc1
  have hlen1 : acc1.1.length = signals.length := by
    rw [hacc1, pasteFold_length]
  have hgetD1 : acc1.1.getD (aS + k).toNat [] = signals.getD (aS + k).toNat [] := by
    rw [hacc1]
    apply pasteFold_getD_ne
    intro k' hk' h1 h2 heq
    have hkk : k = k' := by omega
    exact hK1 (by rw [hkk]; exact hk')
  have hstep : (pasteStep data aS aC acc1 k).1.getD (aS + k).toNat [] =
      pasteSpliceSignal (signals.getD (aS + k).toNat [])
        (aC + groupMinOffset (data.filter (fun it => decide (it.rel_sig = k))))
        (pasteBuffer (data.filter (fun it => decide (it.rel_sig = k)))) := by
    rw [pasteStep, if_pos (by rw [hlen1]; exact hrange)]
    show (acc1.1.set (aS + k).toNat _).getD (aS + k).toNat [] = _
    rw [List.getD_eq_getElem?_getD,
      List.getElem?_set_eq (by rw [hlen1]; omega)]
    show pasteSpliceSignal (acc1.1.getD (aS + k).toNat []) _ _ = _
    rw [hgetD1]
  rw [pasteFold_getD_ne data aS aC K2 (pasteStep data aS aC acc1 k) (aS + k).toNat
    (fun k' hk' h1 h2 heq => by
      have hkk : k = k' := by omega
      exact hK2 (by rw [hkk]; exact hk'))]
  exact hstep

/-! ## Claim C6: copy/paste relative-offset round trip -/

/-- Claim C6: for every well-formed selection (nonempty, with inclusive
regions starting at nonnegative cycles), pasting the payload produced by
`copy_selection` back at the selection's own original anchor — the sorted
selection's first region's signal and start cycle — reproduces the
original values across each copied region's span: afterwards every cell
`start + i` of every in-range selected region holds the value it held at
copy time. -/
theorem claim_C6 (signals : List (List String)) (totalCycles : Int)
    (regions : List Region) (first : Region) (rest : List Region)
    (hsorted : regions.mergeSort regionLeBool = first :: rest)
    (hwf : ∀ r ∈ regions, 0 ≤ r.2.1 ∧ r.2.1 ≤ r.2.2) :
    ∀ r ∈ regions, 0 ≤ r.1 → r.1 < (signals.length : Int) →
    ∀ i : Nat, (i : Int) ≤ r.2.2 - r.2.1 →
    getValueAt (((pasteAt signals totalCycles first.1 first.2.1
        (copySelection signals regions)).1).getD r.1.toNat []) (r.2.1 + i) =
      getValueAt (signals.getD r.1.toNat []) (r.2.1 + i) := by
  intro r hr hr0 hrlt i hi
  have hwfr := hwf r hr
  set payload := copySelection signals regions with hpayload
  set k : Int := r.1 - first.1 with hkdef
  set items := payload.filter (fun it => decide (it.rel_sig = k)) with hitems
  set src := signals.getD r.1.toNat [] with hsrc
  set itemR : PasteItem :=
    ⟨r.1 - first.1,
      (pyRange r.2.1 (r.2.2 + 1)).map
        (fun t => getValueAt (signals.getD r.1.toNat []) t),
      r.2.1 - first.2.1⟩ with hitemR
  have hrs : r ∈ first :: rest := by
    rw [← hsorted]
    exact List.mem_mergeSort.2 hr
  have hitem_mem : itemR ∈ payload := by
    rw [hpayload, copySelection, hsorted]
    refine List.mem_filterMap.2 ⟨r, hrs, ?_⟩
    rw [if_pos ⟨hr0, hrlt⟩]
  have hitem_items : itemR ∈ items := by
    rw [hitems]
    refine List.mem_filter.2 ⟨hitem_mem, ?_⟩
    rw [hitemR]
    exact decide_eq_true rfl
  have hk_mem : k ∈ pasteGroupKeys payload :=
    (mem_pasteGroupKeys payload k).2 ⟨itemR, hitem_mem, rfl⟩
  have hgroup : ∀ it ∈ items, ∃ r' ∈ regions, r'.1 = r.1 ∧ 0 ≤ r'.2.1 ∧
      it.start_offset = r'.2.1 - first.2.1 ∧
      it.values = (pyRange r'.2.1 (r'.2.2 + 1)).map
        (fun t => getValueAt (signals.getD r'.1.toNat []) t) := by
    intro it hmem
    rw [hitems] at hmem
    obtain ⟨hmem', hrel⟩ := List.mem_filter.1 hmem
    rw [hpayload, copySelection, hsorted] at hmem'
    obtain ⟨r', hr', hF⟩ := List.mem_filterMap.1 hmem'
    by_cases hcase : 0 ≤ r'.1 ∧ r'.1 < (signals.length : Int)
    · rw [if_pos hcase] at hF
      injection hF with hF
      have hrel' : it.rel_sig = k := of_decide_eq_true hrel
      have hsig : it.rel_sig = r'.1 - first.1 := by rw [← hF]
      have hr'r : r'.1 = r.1 := by
        rw [hrel', hkdef] at hsig
        omega
      have hr'regions : r' ∈ regions := List.mem_mergeSort.1 (hsorted ▸ hr')
      exact ⟨r', hr'regions, hr'r, (hwf r' hr'regions).1, by rw [← hF], by rw [← hF]⟩
    · rw [if_neg hcase] at hF
      cases hF
  set g : Int → String := fun off => getValueAt src (first.2.1 + off) with hg
  have hagree : ∀ it ∈ items, ∀ j : Nat, j < it.values.length →
      it.values[j]? = some (g (it.start_offset + j)) := by
    intro it hmem j hj
    obtain ⟨r', hr'reg, hr'sig, hr'0, hoff, hvals⟩ := hgroup it hmem
    rw [hvals] at hj ⊢
    rw [List.length_map, length_pyRange] at hj
    rw [List.getElem?_map, getElem?_pyRange, if_pos hj]
    show some (getValueAt (signals.getD r'.1.toNat []) (r'.2.1 + (j : Int))) =
      some (getValueAt src (first.2.1 + (it.start_offset + (j : Int))))
    rw [hsrc, hr'sig, hoff]
    congr 2
    omega
  have hmo_le_all : ∀ it ∈ items, groupMinOffset items ≤ it.start_offset :=
    fun it h => groupMinOffset_le items it h
  have hitems_ne : items ≠ [] := by
    intro h
    rw [h] at hitem_items
    cases hitem_items
  have hmo_ge : -first.2.1 ≤ groupMinOffset items :=
    groupMinOffset_ge items _ hitems_ne (fun it hmem => by
      obtain ⟨r', _, _, hr'0, hoff, _⟩ := hgroup it hmem
      omega)
  have hoffR : itemR.start_offset = r.2.1 - first.2.1 := rfl
  have hlenR : (itemR.values.length : Int) = r.2.2 + 1 - r.2.1 := by
    rw [hitemR]
    show (((pyRange r.2.1 (r.2.2 + 1)).map _).length : Int) = _
    rw [List.length_map, length_pyRange]
    omega
  have hmoler : groupMinOffset items ≤ r.2.1 - first.2.1 := by
    have := hmo_le_all itemR hitem_items
    rw [hoffR] at this
    exact this
  set mo := groupMinOffset items with hmo
  set insertPos := first.2.1 + mo with hip
  have hip0 : 0 ≤ insertPos := by omega
  set q : Nat := ((r.2.1 : Int) + i - insertPos).toNat with hqdef
  have hq_eq : insertPos + (q : Int) = r.2.1 + i := by omega
  have hq_lt : q < (pasteBuffer items).length := by
    rw [pasteBuffer_length]
    have hmax := groupMaxEnd_ge items itemR hitem_items
    rw [hoffR, hlenR] at hmax
    omega
  have hnodup := pasteGroupKeys_nodup payload
  obtain ⟨K1, K2, hK⟩ := List.append_of_mem hk_mem
  rw [hK, List.nodup_append] at hnodup
  obtain ⟨hnd1, hnd2, hdisj⟩ := hnodup
  have hkK1 : k ∉ K1 := fun h => (hdisj h) (List.mem_cons_self _ _)
  have hkK2 : k ∉ K2 := (List.nodup_cons.1 hnd2).1
  have hASK : first.1 + k = r.1 := by omega
  have htgt : (first.1 + k).toNat = r.1.toNat := by rw [hASK]
  have hmain : ((pasteAt signals totalCycles first.1 first.2.1 payload).1).getD
      r.1.toNat [] = pasteSpliceSignal src insertPos (pasteBuffer items) := by
    show (((pasteGroupKeys payload).foldl (pasteStep payload first.1 first.2.1)
      (signals, [], 0)).1).getD r.1.toNat [] = _
    rw [hK, ← htgt]
    rw [pasteFold_getD_hit payload first.1 first.2.1 K1 K2 k signals hkK1 hkK2
      ⟨by omega, by rw [hASK]; exact hrlt⟩]
    rw [htgt, ← hsrc, ← hitems, ← hmo, ← hip]
  rw [hmain]
  rw [show (r.2.1 : Int) + i = insertPos + q from hq_eq.symm]
  rw [pasteSpliceSignal_getValueAt src (pasteBuffer items) insertPos hip0 q hq_lt]
  rw [pasteBuffer_covered items g q hmo_le_all hagree
    ⟨itemR, hitem_items, by rw [hoffR]; constructor <;> omega⟩]
  show getValueAt src (first.2.1 + (mo + q)) = getValueAt src (insertPos + q)
  congr 1
  omega

/-- Witness for `claim_C6`: copying the single region `(0, 1, 2)` of the
signal `['A','A','B','X']` and pasting it back at its own anchor keeps the
value at cycle `1 + 1 = 2` (namely `'B'`). -/
theorem claim_C6_witness :
    getValueAt (((pasteAt [["A", "A", "B", "X"]] 4 0 1
        (copySelection [["A", "A", "B", "X"]] [(0, 1, 2)])).1).getD 0 [])
      (1 + ((1 : Nat) : Int)) =
      getValueAt (([["A", "A", "B", "X"]] : List (List String)).getD 0 [])
        (1 + ((1 : Nat) : Int)) :=
  claim_C6 [["A", "A", "B", "X"]] 4 [(0, 1, 2)] (0, 1, 2) []
    (List.mergeSort_singleton _) (by decide) (0, 1, 2)
    (List.mem_cons_self _ _) (by decide) (by decide) 1 (by decide)

end Timing
